import Mathlib

/-!
Verification of the parallel-scan lexer table construction
(`src/lexer/parallel_lexer.cpp`).

The development shallowly embeds the C++ source: `std::vector` becomes
`List`, raw array indexing becomes `List.getD`, the `std::unordered_map`
interner becomes an association list with insert-if-absent semantics, and
the saturation loop (whose C++ termination rests on finiteness of the
function space) is given explicit fuel, returning `none` on exhaustion.

Constants (`REJECT`, `START`, `MAX_SYM`, `MIN_SIZE`, `GROW_FACTOR`) live in
headers that are not part of the sources (`parallel_lexer.hpp`, `fsa.hpp`);
they are modelled from the spec.
-/

set_option maxHeartbeats 4000000
set_option maxRecDepth 10000

namespace CudaLexer

/-- Modelled from the spec: `REJECT` is the reserved sentinel state index
declared in the missing header `fsa.hpp`.  The spec calls it "a reserved
sentinel StateIndex (distinct from any valid DFA state)"; since the code
indexes `ParallelState::transitions` (of width `num_states`) and the DFA
state array by it, it is a reserved slot of the DFA state array. -/
def REJECT : Nat := 0

/-- Modelled from the spec: the designated DFA start state (missing header);
distinct from `REJECT`. -/
def START : Nat := 1

/-- Modelled from the spec: largest input byte (255 for 8-bit input). -/
def MAX_SYM : Nat := 255

/-- Modelled from the spec: initial `MergeTable` capacity (example value 8). -/
def MIN_SIZE : Nat := 8

/-- Modelled from the spec: geometric growth factor of `MergeTable` (example value 2). -/
def GROW_FACTOR : Nat := 2

/-- `ParallelLexer::Transition`: value pair; the default constructor yields
`(REJECT, false)`. -/
structure Transition where
  result_state : Nat
  produces_lexeme : Bool
deriving DecidableEq, Repr

/-- The defaulted `Transition()`. -/
def Transition.init : Transition := ⟨REJECT, false⟩

instance : Inhabited Transition := ⟨Transition.init⟩

/-- `ParallelState`: a fixed-width vector of Transitions, one per DFA state. -/
structure ParallelState where
  transitions : List Transition
deriving DecidableEq, Repr

/-- `ParallelState::ParallelState(size_t states)`: default transitions. -/
def ParallelState.ofSize (n : Nat) : ParallelState := ⟨List.replicate n Transition.init⟩

instance : Inhabited ParallelState := ⟨ParallelState.ofSize 0⟩

/-- `ParallelState::merge`: in-place `state = other.transitions[state.result_state]`
for every slot.  (Out-of-bounds indexing is undefined behaviour in the C++;
`getD` totalizes it with the default transition.) -/
def ParallelState.merge (self other : ParallelState) : ParallelState :=
  ⟨self.transitions.map fun state => other.transitions.getD state.result_state Transition.init⟩

/-- One outgoing DFA transition `(sym, dst, produces_lexeme)` as iterated by the
constructor.  `sym` is stored concrete: the constructor asserts
`sym.has_value()` on every transition before use, so only concrete symbols
reach the embedded code. -/
structure FsaTransition where
  sym : Nat
  dst : Nat
  produces_lexeme : Bool
deriving DecidableEq, Repr

/-- One DFA state as exposed by `dfa[s]`: outgoing transitions and the optional
attached lexeme (an opaque handle, modelled as `Option Nat`). -/
structure FsaState where
  transitions : List FsaTransition
  lexeme : Option Nat
deriving DecidableEq, Repr

instance : Inhabited FsaState := ⟨⟨[], none⟩⟩

/-- Modelled from the spec: the DFA produced by the external collaborator
`FiniteStateAutomaton::build_lexer_dfa` (not part of the sources).  Only the
interface the constructor consumes is modelled: `num_states()`, per-state
outgoing transitions, per-state optional lexeme. -/
structure FiniteStateAutomaton where
  states : List FsaState
deriving DecidableEq, Repr

def FiniteStateAutomaton.num_states (dfa : FiniteStateAutomaton) : Nat :=
  dfa.states.length

/-- Helper for `transList`: transitions of a suffix of the state array whose
first state has index `src`. -/
def transListFrom : Nat → List FsaState → List (Nat × FsaTransition)
  | _, [] => []
  | src, st :: rest => (st.transitions.map fun t => (src, t)) ++ transListFrom (src + 1) rest

/-- The nested iteration `for src < num_states; for (sym, dst, pl) in
dfa[src].transitions`, flattened in iteration order with `src` attached. -/
def FiniteStateAutomaton.transList (dfa : FiniteStateAutomaton) : List (Nat × FsaTransition) :=
  transListFrom 0 dfa.states

/-- `ParallelLexer::MergeTable`: growable dense square array, row-major offset
`first + second * capacity`.  The backing `std::unique_ptr<Transition[]>`
becomes a list of length `capacity * capacity`. -/
structure MergeTable where
  num_states : Nat
  capacity : Nat
  merge_table : List Transition
deriving DecidableEq, Repr

/-- `MergeTable::MergeTable()`. -/
def MergeTable.empty : MergeTable := ⟨0, 0, []⟩

/-- `MergeTable::states()`. -/
def MergeTable.states (t : MergeTable) : Nat := t.num_states

/-- The offset computed by `MergeTable::index`. -/
def MergeTable.index (t : MergeTable) (first second : Nat) : Nat :=
  first + second * t.capacity

/-- The assertions executed by `MergeTable::index`:
`assert(first <= this->num_states); assert(second <= this->num_states);`. -/
def MergeTable.indexAssert (t : MergeTable) (first second : Nat) : Bool :=
  decide (first ≤ t.num_states) && decide (second ≤ t.num_states)

/-- `MergeTable::operator()` (read). -/
def MergeTable.get (t : MergeTable) (first second : Nat) : Transition :=
  t.merge_table.getD (t.index first second) Transition.init

/-- `MergeTable::operator()` (write target). -/
def MergeTable.set (t : MergeTable) (first second : Nat) (v : Transition) : MergeTable :=
  { t with merge_table := t.merge_table.set (t.index first second) v }

/-- One iteration budget of the capacity-growth loop (see `growCapacity`). -/
def growAux : Nat → Nat → Nat → Nat
  | 0, c, _ => c
  | fuel + 1, c, n => if c < n then growAux fuel (c * GROW_FACTOR) n else c

/-- The capacity-growth `while (new_capacity < new_num_states) new_capacity *=
GROW_FACTOR` loop of `MergeTable::resize`.  A fuel of `n` steps provably
suffices whenever the starting capacity is positive (each doubling shrinks
`n - c` by at least one), so this equals the C++ loop on every reachable
call; the C++ loop would diverge from capacity `0`, which callers exclude by
starting from `max(MIN_SIZE, capacity) ≥ MIN_SIZE = 8`. -/
def growCapacity (c n : Nat) : Nat := growAux n c n

/-- `MergeTable::resize`. -/
def MergeTable.resize (t : MergeTable) (new_num_states : Nat) : MergeTable :=
  if new_num_states ≤ t.capacity then { t with num_states := new_num_states }
  else
    let new_capacity := growCapacity (max MIN_SIZE t.capacity) new_num_states
    let new_ptr := (List.range (new_capacity * new_capacity)).map fun idx =>
      if idx % new_capacity < t.num_states ∧ idx / new_capacity < t.num_states then
        t.get (idx % new_capacity) (idx / new_capacity)
      else Transition.init
    ⟨new_num_states, new_capacity, new_ptr⟩

/-- The transient construction state of `ParallelLexer::ParallelLexer`:
the dedup map `seen` (association list, insertion order), the canonical
`states` vector, and the merge table being filled.  (`this->merge_table` is
threaded here during construction and moved into the artifact at the end.) -/
structure Builder where
  seen : List (ParallelState × Nat)
  states : List ParallelState
  merge_table : MergeTable
deriving DecidableEq, Repr

/-- `seen.insert({ps, states.size()})` lookup half: the first entry whose key
equals `ps` structurally. -/
def lookupSeen (seen : List (ParallelState × Nat)) (ps : ParallelState) : Option Nat :=
  (seen.find? fun e => decide (e.1 = ps)).map (fun e => e.2)

/-- The `enqueue` lambda: insert-if-absent into `seen`, push onto `states`,
grow the merge table, return the (existing or fresh) index. -/
def Builder.enqueue (b : Builder) (ps : ParallelState) : Builder × Nat :=
  match lookupSeen b.seen ps with
  | some k => (b, k)
  | none =>
      let k := b.states.length
      (⟨b.seen ++ [(ps, k)], b.states ++ [ps], b.merge_table.resize (k + 1)⟩, k)

/-- The identity `ParallelState` seeded in the constructor:
default everywhere, then `transitions[i].result_state = i`. -/
def identityState (n : Nat) : ParallelState :=
  ⟨(List.range n).map fun i => ⟨i, false⟩⟩

/-- One write of the seeding loop:
`initial_states[sym].transitions[src] = {dst, produces_lexeme}` (the two
fields are assigned separately in the C++; the combined effect is equal). -/
def applyFsaTransition (acc : List ParallelState) (e : Nat × FsaTransition) : List ParallelState :=
  acc.set e.2.sym
    ⟨(acc.getD e.2.sym default).transitions.set e.1 ⟨e.2.dst, e.2.produces_lexeme⟩⟩

/-- Step 1 first half: `MAX_SYM + 1` blank ParallelStates of width
`num_states`, then one write per DFA transition, in iteration order. -/
def seedInitial (dfa : FiniteStateAutomaton) : List ParallelState :=
  dfa.transList.foldl applyFsaTransition
    (List.replicate (MAX_SYM + 1) (ParallelState.ofSize dfa.num_states))

/-- Step 1 second half: intern each initial state in symbol order, recording
the artifact entry `(enqueue(state), state.transitions[START].produces_lexeme)`
(the flag is read before the state is moved into the interner).  Written as
structural recursion over the symbol-ordered list; the recorded entries come
out in the same symbol order as the C++ loop. -/
def internInitial (b : Builder) : List ParallelState → Builder × List Transition
  | [] => (b, [])
  | state :: rest =>
      let pl := (state.transitions.getD START default).produces_lexeme
      let q := b.enqueue state
      let r := internInitial q.1 rest
      (r.1, ⟨q.2, pl⟩ :: r.2)

/-- The `merge` lambda of the constructor: identity shortcut, otherwise copy
`states[i]`, compose with `states[j]`, intern; then write
`merge_table(i, j) = {result, states[result].transitions[START].produces_lexeme}`. -/
def mergeStep (idIdx : Nat) (b : Builder) (i j : Nat) : Builder :=
  let q : Builder × Nat :=
    if i = idIdx then (b, j)
    else if j = idIdx then (b, i)
    else
      let ps := (b.states.getD i default).merge (b.states.getD j default)
      b.enqueue ps
  let pl := ((q.1.states.getD q.2 default).transitions.getD START default).produces_lexeme
  { q.1 with merge_table := q.1.merge_table.set i j ⟨q.2, pl⟩ }

/-- The inner saturation loop `for (j = 0; j < states.size(); ++j) { merge(i, j);
merge(j, i); }`; `states.size()` is re-read every iteration.  Fuel models the
C++ termination argument (finiteness of the function space). -/
def innerLoop (idIdx : Nat) : Nat → Builder → Nat → Nat → Option Builder
  | 0, _, _, _ => none
  | fuel + 1, b, i, j =>
      if j < b.states.length then
        innerLoop idIdx fuel (mergeStep idIdx (mergeStep idIdx b i j) j i) i (j + 1)
      else some b

/-- The outer saturation loop `for (i = 0; i < states.size(); ++i)`, re-reading
`states.size()`.  The `i % 20` progress printing is output-only and elided. -/
def outerLoop (idIdx : Nat) : Nat → Builder → Nat → Option Builder
  | 0, _, _ => none
  | fuel + 1, b, i =>
      if i < b.states.length then
        match innerLoop idIdx (fuel + 1) b i 0 with
        | none => none
        | some b2 => outerLoop idIdx fuel b2 (i + 1)
      else some b

/-- Step 4: `final_states.resize(seen.size(), nullptr)` then, for every entry
`(ps, i)` of `seen`, `final_states[i] = dfa[ps.transitions[START].result_state].lexeme`.
The C++ iterates the unordered map in unspecified order; the writes go to
pairwise distinct indices, so iterating in insertion order is equivalent. -/
def finalStates (dfa : FiniteStateAutomaton) (seen : List (ParallelState × Nat)) :
    List (Option Nat) :=
  seen.foldl
    (fun acc e =>
      acc.set e.2
        (dfa.states.getD (e.1.transitions.getD START default).result_state default).lexeme)
    (List.replicate seen.length none)

/-- The persistent artifact. -/
structure ParallelLexer where
  initial_states : List Transition
  merge_table : MergeTable
  identity_state_index : Nat
  final_states : List (Option Nat)
deriving DecidableEq, Repr

/-- The empty construction state at the top of the constructor body. -/
def constructStage0 : Builder := ⟨[], [], MergeTable.empty⟩

/-- Constructor steps 1: seed and intern the per-symbol initial states,
producing the builder state and the artifact `initial_states` table. -/
def constructSeedPhase (dfa : FiniteStateAutomaton) : Builder × List Transition :=
  internInitial constructStage0 (seedInitial dfa)

/-- Constructor step 2: intern the identity mapping, producing the builder
state and `identity_state_index`. -/
def constructIdPhase (dfa : FiniteStateAutomaton) : Builder × Nat :=
  (constructSeedPhase dfa).1.enqueue (identityState dfa.num_states)

/-- `ParallelLexer::ParallelLexer`, starting from the DFA delivered by the
external `build_lexer_dfa`.  Returns the artifact together with the final
construction scaffolding (`seen` / `states` / table); `none` on fuel
exhaustion of the saturation loop. -/
def ParallelLexer.construct (dfa : FiniteStateAutomaton) (fuel : Nat) :
    Option (ParallelLexer × Builder) :=
  match outerLoop (constructIdPhase dfa).2 fuel (constructIdPhase dfa).1 0 with
  | none => none
  | some b3 =>
      some (⟨(constructSeedPhase dfa).2, b3.merge_table, (constructIdPhase dfa).2,
        finalStates dfa b3.seen⟩, b3)

/-- Modelled from the spec: the sequential DFA step, "starting at START and
consuming `b_1 … b_n` one character at a time" — from state `s` on byte `b`,
follow the (unique, by determinism) transition if present, else fall to
`REJECT`. -/
def seqStep (dfa : FiniteStateAutomaton) (s b : Nat) : Nat :=
  match (dfa.states.getD s default).transitions.find? (fun t => decide (t.sym = b)) with
  | some t => t.dst
  | none => REJECT

/-- Modelled from the spec: the DFA state reached from `s` after a byte string. -/
def seqRun (dfa : FiniteStateAutomaton) (s : Nat) (bytes : List Nat) : Nat :=
  bytes.foldl (seqStep dfa) s

/-- Modelled from the spec: the optional lexeme the sequential DFA recognizes
on a byte string started at `START` (the lexeme attached to the final state). -/
def seqLexeme (dfa : FiniteStateAutomaton) (bytes : List Nat) : Option Nat :=
  (dfa.states.getD (seqRun dfa START bytes) default).lexeme

/-- Folding the per-byte entries `initial_states[b_t]` through the merge
table, starting from the identity state (claim C1 / spec P4). -/
def foldBytes (lexer : ParallelLexer) (bytes : List Nat) : Nat :=
  bytes.foldl
    (fun acc b =>
      (lexer.merge_table.get acc (lexer.initial_states.getD b default).result_state).result_state)
    lexer.identity_state_index

/-- Well-formedness of the collaborator-provided DFA, as presumed by the
spec: the reserved and start states exist, determinism (at most one
transition per `(src, sym)`), and transitions stay inside the alphabet and
the state array. -/
def FsaWF (dfa : FiniteStateAutomaton) : Prop :=
  REJECT < dfa.num_states ∧ START < dfa.num_states ∧
  (dfa.transList.map fun e => (e.1, e.2.sym)).Nodup ∧
  ∀ e ∈ dfa.transList, e.2.sym ≤ MAX_SYM ∧ e.2.dst < dfa.num_states

instance (dfa : FiniteStateAutomaton) : Decidable (FsaWF dfa) := by
  unfold FsaWF
  infer_instance

/-- A small concrete deterministic DFA used to exercise the construction:
state 0 is the reserved reject state, state 1 the start state `A`, state 2 a
state `B` carrying lexeme `7`.  Byte 0 swaps `A` and `B` (no lexeme flags);
byte 1 loops on `A` producing a lexeme and loops on `B` silently. -/
def testDfa : FiniteStateAutomaton :=
  ⟨[⟨[], none⟩,
    ⟨[⟨0, 2, false⟩, ⟨1, 1, true⟩], none⟩,
    ⟨[⟨0, 1, false⟩, ⟨1, 2, false⟩], some 7⟩]⟩

/-- The artifact built from `testDfa` (fuel 50 amply suffices; the construction
interns 5 parallel states). -/
def testRun : ParallelLexer × Builder :=
  (ParallelLexer.construct testDfa 50).getD
    (⟨[], MergeTable.empty, 0, []⟩, ⟨[], [], MergeTable.empty⟩)

def testLex : ParallelLexer := testRun.1

def testBld : Builder := testRun.2

/-- A second concrete DFA: byte 0 moves `START` to the lexeme-carrying state
`2` with `produces_lexeme = true`; no other transitions.  Its artifact
interns only the seeded byte states, the dead state and the identity, so
the flag-erased composition `states[0].merge(identity)` is not interned. -/
def testDfaB : FiniteStateAutomaton :=
  ⟨[⟨[], none⟩,
    ⟨[⟨0, 2, true⟩], none⟩,
    ⟨[], some 9⟩]⟩

def testRunB : ParallelLexer × Builder :=
  (ParallelLexer.construct testDfaB 50).getD
    (⟨[], MergeTable.empty, 0, []⟩, ⟨[], [], MergeTable.empty⟩)

def testLexB : ParallelLexer := testRunB.1

def testBldB : Builder := testRunB.2

/-- The result-state function a `ParallelState` realizes on DFA states. -/
def ParallelState.resApp (ps : ParallelState) (s : Nat) : Nat :=
  (ps.transitions.getD s default).result_state

/-- Width and boundedness: the state has exactly `n` slots and every stored
`result_state` is a valid slot index.  This holds for every `ParallelState`
the constructor ever interns, and is what makes the raw `merge` indexing
(`other.transitions[state.result_state]`) well-defined. -/
def ParallelState.Wb (ps : ParallelState) (n : Nat) : Prop :=
  ps.transitions.length = n ∧ ∀ t ∈ ps.transitions, t.result_state < n

/-- The contents of the dedup map after interning a list of states in order,
starting at index `k`: pairs `(state, index)` in insertion order. -/
def seenFrom : Nat → List ParallelState → List (ParallelState × Nat)
  | _, [] => []
  | k, a :: l => (a, k) :: seenFrom (k + 1) l

/-- Index of the first structurally equal state (the interner's answer). -/
def psIdx : List ParallelState → ParallelState → Nat
  | [], _ => 0
  | a :: l, x => if a = x then 0 else psIdx l x + 1

/-- The result index the `merge` lambda computes for the pair `(i, j)`,
expressed against a states list: the identity shortcut, or the interned
index of the composition. -/
def mergeResult (states : List ParallelState) (idIdx i j : Nat) : Nat :=
  if i = idIdx then j
  else if j = idIdx then i
  else psIdx states ((states.getD i default).merge (states.getD j default))

/-- The table entry the `merge` lambda stores for `(i, j)`: the result index
paired with `states[result].transitions[START].produces_lexeme`. -/
def mergeSpec (states : List ParallelState) (idIdx i j : Nat) : Transition :=
  ⟨mergeResult states idIdx i j,
   ((states.getD (mergeResult states idIdx i j) default).transitions.getD
       START default).produces_lexeme⟩

/-- The pair `(i, j)` has been processed by the saturation loop: its
composition (when no operand is the identity) is interned, and the table
cell holds the entry the `merge` lambda computes. -/
def Covered (b : Builder) (idIdx i j : Nat) : Prop :=
  (i ≠ idIdx → j ≠ idIdx →
     ((b.states.getD i default).merge (b.states.getD j default)) ∈ b.states) ∧
  b.merge_table.get i j = mergeSpec b.states idIdx i j

/-- The construction invariant tying the three interner containers together
(width parameter `n` = number of DFA states). -/
def BInv (n : Nat) (b : Builder) : Prop :=
  b.seen = seenFrom 0 b.states ∧
  b.states.Nodup ∧
  (∀ ps ∈ b.states, ps.Wb n) ∧
  b.merge_table.num_states = b.states.length ∧
  b.merge_table.num_states ≤ b.merge_table.capacity ∧
  b.merge_table.merge_table.length = b.merge_table.capacity * b.merge_table.capacity

/-! ## List helper lemmas -/

theorem getD_map_range {α : Type} (f : Nat → α) (n k : Nat) (d : α) :
    ((List.range n).map f).getD k d = if k < n then f k else d := by
  simp only [List.getD_eq_getElem?_getD, List.getElem?_map, List.getElem?_range]
  by_cases h : k < n
  · simp [h]
  · rw [List.getElem?_eq_none (by simpa using Nat.le_of_not_lt h)]
    simp [h]

theorem getD_set {α : Type} (l : List α) (m k : Nat) (v : α) (d : α) :
    (l.set m v).getD k d = if k = m ∧ k < l.length then v else l.getD k d := by
  induction l generalizing m k with
  | nil => simp [List.set]
  | cons a l ih =>
      cases m with
      | zero =>
          cases k with
          | zero => simp [List.set]
          | succ k => simp [List.set, List.getD]
      | succ m =>
          cases k with
          | zero => simp [List.set, List.getD]
          | succ k =>
              simp only [List.set, List.getD_cons_succ, ih l.length, List.length_cons]
              rw [ih]
              by_cases h1 : k = m ∧ k < l.length
              · simp [h1]
              · simp only [if_neg h1]
                rw [if_neg]
                omega

theorem getD_append_lt {α : Type} (l l2 : List α) (k : Nat) (d : α) (h : k < l.length) :
    (l ++ l2).getD k d = l.getD k d := by
  induction l generalizing k with
  | nil => simp at h
  | cons a l ih =>
      cases k with
      | zero => simp
      | succ k =>
          simp only [List.cons_append, List.getD_cons_succ]
          exact ih k (by simpa using h)

theorem getD_append_ge {α : Type} (l l2 : List α) (k : Nat) (d : α) (h : l.length ≤ k) :
    (l ++ l2).getD k d = l2.getD (k - l.length) d := by
  induction l generalizing k with
  | nil => simp
  | cons a l ih =>
      cases k with
      | zero => simp at h
      | succ k =>
          simp only [List.cons_append, List.getD_cons_succ, List.length_cons]
          rw [ih k (by simpa using h)]
          congr 1
          omega

theorem length_set_eq {α : Type} (l : List α) (m : Nat) (v : α) :
    (l.set m v).length = l.length := by
  simp

/-! ## MergeTable lemmas -/

theorem growAux_key (m : Nat) : ∀ c n : Nat, 0 < c → n - c ≤ m →
    n ≤ growAux m c n ∧ 0 < growAux m c n ∧
    ∃ k, growAux m c n = c * GROW_FACTOR ^ k ∧ ∀ k2 < k, c * GROW_FACTOR ^ k2 < n := by
  induction m with
  | zero =>
      intro c n hc hm
      simp only [growAux]
      exact ⟨by omega, hc, 0, by simp, fun k2 hk => absurd hk (by omega)⟩
  | succ m ih =>
      intro c n hc hm
      simp only [growAux]
      by_cases h : c < n
      · rw [if_pos h]
        obtain ⟨h1, h2, k, hk, hmin⟩ :=
          ih (c * GROW_FACTOR) n (by simp only [GROW_FACTOR]; omega)
            (by simp only [GROW_FACTOR]; omega)
        refine ⟨h1, h2, k + 1, ?_, ?_⟩
        · rw [hk, pow_succ]
          ring
        · intro k2 hk2
          cases k2 with
          | zero => simpa using h
          | succ j =>
              have := hmin j (by omega)
              calc c * GROW_FACTOR ^ (j + 1) = c * GROW_FACTOR * GROW_FACTOR ^ j := by
                    rw [pow_succ]; ring
                _ < n := this
      · rw [if_neg h]
        exact ⟨by omega, hc, 0, by simp, fun k2 hk => absurd hk (by omega)⟩

theorem growCapacity_key (c n : Nat) (hc : 0 < c) :
    n ≤ growCapacity c n ∧ 0 < growCapacity c n ∧
    ∃ k, growCapacity c n = c * GROW_FACTOR ^ k ∧ ∀ k2 < k, c * GROW_FACTOR ^ k2 < n :=
  growAux_key n c n hc (by omega)

theorem growCapacity_ge (c n : Nat) (hc : 0 < c) : n ≤ growCapacity c n :=
  (growCapacity_key c n hc).1

theorem growCapacity_pos (c n : Nat) (hc : 0 < c) : 0 < growCapacity c n :=
  (growCapacity_key c n hc).2.1

theorem growCapacity_start_le (c n : Nat) (hc : 0 < c) : c ≤ growCapacity c n := by
  obtain ⟨k, hk, -⟩ := (growCapacity_key c n hc).2.2
  rw [hk]
  have : 0 < GROW_FACTOR ^ k := Nat.pos_pow_of_pos k (by simp [GROW_FACTOR])
  calc c = c * 1 := by ring
    _ ≤ c * GROW_FACTOR ^ k := Nat.mul_le_mul_left c this

theorem index_lt_add_mod (i j C : Nat) (h : i < C) : (i + j * C) % C = i := by
  rw [Nat.add_mul_mod_self_right]
  exact Nat.mod_eq_of_lt h

theorem index_lt_add_div (i j C : Nat) (h : i < C) : (i + j * C) / C = j := by
  rw [Nat.add_mul_div_right _ _ (by omega : 0 < C), Nat.div_eq_of_lt h]
  omega

theorem index_lt_sq (first second C : Nat) (h1 : first < C) (h2 : second < C) :
    first + second * C < C * C := by
  calc first + second * C < C + second * C := by omega
    _ = (second + 1) * C := by ring
    _ ≤ C * C := Nat.mul_le_mul_right C (by omega)

theorem resize_num_states (t : MergeTable) (n : Nat) :
    (t.resize n).num_states = n := by
  unfold MergeTable.resize
  split <;> rfl

theorem resize_le_eq (t : MergeTable) (n : Nat) (h : n ≤ t.capacity) :
    t.resize n = ⟨n, t.capacity, t.merge_table⟩ := by
  unfold MergeTable.resize
  rw [if_pos h]

theorem resize_gt_capacity (t : MergeTable) (n : Nat) (h : t.capacity < n) :
    (t.resize n).capacity = growCapacity (max MIN_SIZE t.capacity) n := by
  unfold MergeTable.resize
  rw [if_neg (by omega)]

theorem resize_gt_data (t : MergeTable) (n : Nat) (h : t.capacity < n) :
    (t.resize n).merge_table =
      (List.range (growCapacity (max MIN_SIZE t.capacity) n *
        growCapacity (max MIN_SIZE t.capacity) n)).map fun idx =>
        if idx % growCapacity (max MIN_SIZE t.capacity) n < t.num_states ∧
            idx / growCapacity (max MIN_SIZE t.capacity) n < t.num_states then
          t.get (idx % growCapacity (max MIN_SIZE t.capacity) n)
            (idx / growCapacity (max MIN_SIZE t.capacity) n)
        else Transition.init := by
  unfold MergeTable.resize
  rw [if_neg (by omega)]

theorem resize_gt_get (t : MergeTable) (n : Nat) (h : t.capacity < n) (i j : Nat)
    (hi : i < (t.resize n).capacity) (hj : j < (t.resize n).capacity) :
    (t.resize n).get i j =
      if i < t.num_states ∧ j < t.num_states then t.get i j else Transition.init := by
  have hcap := resize_gt_capacity t n h
  rw [hcap] at hi hj
  simp only [MergeTable.get, MergeTable.index, resize_gt_data t n h, hcap]
  rw [getD_map_range]
  rw [if_pos (index_lt_sq i j _ hi hj)]
  simp only [index_lt_add_mod i j _ hi, index_lt_add_div i j _ hi]

theorem resize_capacity_ge (t : MergeTable) (n : Nat) : n ≤ (t.resize n).capacity := by
  unfold MergeTable.resize
  by_cases h : n ≤ t.capacity
  · rw [if_pos h]; exact h
  · rw [if_neg h]
    exact growCapacity_ge _ n (by simp only [MIN_SIZE]; omega)

theorem resize_capacity_mono (t : MergeTable) (n : Nat) :
    t.capacity ≤ (t.resize n).capacity := by
  unfold MergeTable.resize
  by_cases h : n ≤ t.capacity
  · rw [if_pos h]
  · rw [if_neg h]
    calc t.capacity ≤ max MIN_SIZE t.capacity := le_max_right _ _
      _ ≤ growCapacity (max MIN_SIZE t.capacity) n :=
          growCapacity_start_le _ n (by simp only [MIN_SIZE]; omega)

theorem resize_length (t : MergeTable) (n : Nat)
    (hlen : t.merge_table.length = t.capacity * t.capacity) :
    (t.resize n).merge_table.length = (t.resize n).capacity * (t.resize n).capacity := by
  unfold MergeTable.resize
  by_cases h : n ≤ t.capacity
  · rw [if_pos h]; exact hlen
  · rw [if_neg h]
    simp

theorem resize_get_preserved (t : MergeTable) (n : Nat)
    (hnum : t.num_states ≤ t.capacity) (i j : Nat)
    (hi : i < t.num_states) (hj : j < t.num_states) :
    (t.resize n).get i j = t.get i j := by
  by_cases h : n ≤ t.capacity
  · rw [resize_le_eq t n h]
    rfl
  · have h2 : t.capacity < n := by omega
    have hcapmono := resize_capacity_mono t n
    rw [resize_gt_get t n h2 i j (by omega) (by omega), if_pos ⟨hi, hj⟩]

theorem index_inj (i j i2 j2 C : Nat) (hi : i < C) (hi2 : i2 < C)
    (h : i + j * C = i2 + j2 * C) : i = i2 ∧ j = j2 := by
  constructor
  · rw [← index_lt_add_mod i j C hi, ← index_lt_add_mod i2 j2 C hi2, h]
  · rw [← index_lt_add_div i j C hi, ← index_lt_add_div i2 j2 C hi2, h]

theorem set_fields (t : MergeTable) (i j : Nat) (v : Transition) :
    (t.set i j v).num_states = t.num_states ∧ (t.set i j v).capacity = t.capacity ∧
    (t.set i j v).merge_table.length = t.merge_table.length := by
  refine ⟨rfl, rfl, ?_⟩
  simp [MergeTable.set]

theorem get_set_self (t : MergeTable) (i j : Nat) (v : Transition)
    (hidx : t.index i j < t.merge_table.length) :
    (t.set i j v).get i j = v := by
  simp only [MergeTable.set, MergeTable.get, MergeTable.index] at hidx ⊢
  rw [getD_set, if_pos ⟨rfl, hidx⟩]

theorem get_set_other (t : MergeTable) (i j i2 j2 : Nat) (v : Transition)
    (hi : i < t.capacity) (hi2 : i2 < t.capacity) (hne : ¬(i2 = i ∧ j2 = j)) :
    (t.set i j v).get i2 j2 = t.get i2 j2 := by
  simp only [MergeTable.set, MergeTable.get, MergeTable.index]
  rw [getD_set, if_neg]
  intro hcon
  exact hne (index_inj i2 j2 i j t.capacity hi2 hi hcon.1)

/-! ## seen list and interner index lemmas -/

theorem seenFrom_append_single (l : List ParallelState) (x : ParallelState) :
    ∀ k, seenFrom k (l ++ [x]) = seenFrom k l ++ [(x, k + l.length)] := by
  induction l with
  | nil => intro k; simp [seenFrom]
  | cons a l ih =>
      intro k
      simp only [List.cons_append, seenFrom, List.append_eq]
      rw [ih (k + 1)]
      have heq : k + 1 + l.length = k + (l.length + 1) := by omega
      simp [heq]

theorem seenFrom_length (l : List ParallelState) : ∀ k, (seenFrom k l).length = l.length := by
  induction l with
  | nil => intro k; simp [seenFrom]
  | cons a l ih => intro k; simp [seenFrom, ih (k + 1)]

theorem psIdx_lt_of_mem (l : List ParallelState) (x : ParallelState) (h : x ∈ l) :
    psIdx l x < l.length := by
  induction l with
  | nil => simp at h
  | cons a l ih =>
      by_cases ha : a = x
      · simp [psIdx, ha]
      · have hx : x ∈ l := by
          cases h with
          | head => exact absurd rfl ha
          | tail _ h => exact h
        simp only [psIdx, if_neg ha, List.length_cons]
        exact Nat.succ_lt_succ (ih hx)

theorem getD_psIdx (l : List ParallelState) (x : ParallelState) (h : x ∈ l) (d : ParallelState) :
    l.getD (psIdx l x) d = x := by
  induction l with
  | nil => simp at h
  | cons a l ih =>
      by_cases ha : a = x
      · simp [psIdx, ha]
      · have hx : x ∈ l := by
          cases h with
          | head => exact absurd rfl ha
          | tail _ h => exact h
        simp only [psIdx, if_neg ha, List.getD_cons_succ]
        exact ih hx

theorem psIdx_append_of_mem (l l2 : List ParallelState) (x : ParallelState) (h : x ∈ l) :
    psIdx (l ++ l2) x = psIdx l x := by
  induction l with
  | nil => simp at h
  | cons a l ih =>
      by_cases ha : a = x
      · simp [psIdx, ha]
      · have hx : x ∈ l := by
          cases h with
          | head => exact absurd rfl ha
          | tail _ h => exact h
        simp [psIdx, if_neg ha, ih hx]

theorem psIdx_append_right (l : List ParallelState) (x : ParallelState) (h : ¬ x ∈ l) :
    psIdx (l ++ [x]) x = l.length := by
  induction l with
  | nil => simp [psIdx]
  | cons a l ih =>
      have ha : ¬ a = x := fun he => h (he ▸ List.mem_cons_self a l)
      have hx : ¬ x ∈ l := fun hm => h (List.mem_cons_of_mem a hm)
      simp [psIdx, if_neg ha, ih hx]

theorem lookupSeen_seenFrom (l : List ParallelState) (x : ParallelState) :
    ∀ k, lookupSeen (seenFrom k l) x =
      if x ∈ l then some (k + psIdx l x) else none := by
  induction l with
  | nil => intro k; simp [seenFrom, lookupSeen]
  | cons a l ih =>
      intro k
      by_cases ha : a = x
      · subst ha
        simp [seenFrom, lookupSeen, List.find?, psIdx]
      · have : (decide ((a, k).1 = x)) = false := by
          simp [ha]
        simp only [seenFrom, lookupSeen, List.find?, this]
        have := ih (k + 1)
        simp only [lookupSeen] at this
        rw [this]
        by_cases hx : x ∈ l
        · rw [if_pos hx, if_pos (List.mem_cons_of_mem a hx)]
          simp only [psIdx, if_neg ha]
          congr 1
          omega
        · rw [if_neg hx, if_neg]
          intro hc
          cases hc with
          | head => exact ha rfl
          | tail _ hm => exact hx hm

theorem psIdx_getD_self (l : List ParallelState) (j : Nat) (hnd : l.Nodup) (hj : j < l.length) :
    psIdx l (l.getD j default) = j := by
  induction l generalizing j with
  | nil => simp at hj
  | cons a l ih =>
      cases j with
      | zero => simp [psIdx]
      | succ j =>
          have hj2 : j < l.length := by simpa using hj
          have hmem : l.getD j default ∈ l := by
            rw [List.getD_eq_getElem?_getD, List.getElem?_eq_getElem hj2]
            exact List.getElem_mem hj2
          have ha : ¬ a = l.getD j default := by
            intro he
            exact (List.nodup_cons.mp hnd).1 (he ▸ hmem)
          simp only [List.getD_cons_succ, psIdx, if_neg ha]
          rw [ih j (List.nodup_cons.mp hnd).2 hj2]

/-! ## ParallelState lemmas -/

theorem merge_transitions_length (self other : ParallelState) :
    (self.merge other).transitions.length = self.transitions.length := by
  simp [ParallelState.merge]

theorem merge_getD (self other : ParallelState) (s : Nat) (h : s < self.transitions.length) :
    (self.merge other).transitions.getD s default =
      other.transitions.getD (self.transitions.getD s default).result_state default := by
  have h1 : self.transitions.getD s default = self.transitions[s] := by
    rw [List.getD_eq_getElem?_getD, List.getElem?_eq_getElem h]
    rfl
  simp only [ParallelState.merge]
  rw [List.getD_eq_getElem?_getD, List.getElem?_map, List.getElem?_eq_getElem h]
  simp only [Option.map_some, Option.getD_some, h1]
  rfl

theorem getD_mem_of_lt {α : Type} [Inhabited α] {l : List α} {s : Nat} (h : s < l.length) :
    l.getD s default ∈ l := by
  rw [List.getD_eq_getElem?_getD, List.getElem?_eq_getElem h]
  exact List.getElem_mem h

theorem resApp_lt (ps : ParallelState) (n : Nat) (h : ps.Wb n) (s : Nat) (hs : s < n) :
    ps.resApp s < n := by
  have hlen : s < ps.transitions.length := by rw [h.1]; exact hs
  exact h.2 _ (getD_mem_of_lt hlen)

theorem merge_Wb (self other : ParallelState) (n : Nat) (hs : self.Wb n) (ho : other.Wb n) :
    (self.merge other).Wb n := by
  constructor
  · rw [merge_transitions_length, hs.1]
  · intro t ht
    simp only [ParallelState.merge, List.mem_map] at ht
    obtain ⟨st, hst, rfl⟩ := ht
    by_cases hb : st.result_state < other.transitions.length
    · exact ho.2 _ (getD_mem_of_lt hb)
    · rw [List.getD_eq_getElem?_getD, List.getElem?_eq_none (by omega)]
      simp only [Option.getD_none]
      have : 0 < n := by
        have := hs.2 st hst
        omega
      simp only [Transition.init, REJECT]
      exact this

theorem resApp_merge (self other : ParallelState) (n : Nat) (hs : self.Wb n) (ho : other.Wb n)
    (s : Nat) (h : s < n) :
    (self.merge other).resApp s = other.resApp (self.resApp s) := by
  simp only [ParallelState.resApp]
  rw [merge_getD self other s (by rw [hs.1]; exact h)]

theorem identityState_transitions_getD (n s : Nat) (h : s < n) :
    (identityState n).transitions.getD s default = ⟨s, false⟩ := by
  simp only [identityState]
  rw [getD_map_range, if_pos h]

theorem identityState_Wb (n : Nat) : (identityState n).Wb n := by
  constructor
  · simp [identityState]
  · intro t ht
    simp only [identityState, List.mem_map, List.mem_range] at ht
    obtain ⟨i, hi, rfl⟩ := ht
    exact hi

theorem identityState_resApp (n s : Nat) (h : s < n) : (identityState n).resApp s = s := by
  simp only [ParallelState.resApp]
  rw [identityState_transitions_getD n s h]

theorem merge_identity_left (n : Nat) (x : ParallelState) (hx : x.Wb n) :
    (identityState n).merge x = x := by
  have hlen : (identityState n).transitions.length = n := (identityState_Wb n).1
  cases x with
  | mk tr =>
      simp only [ParallelState.merge, identityState]
      congr 1
      have hlen2 : tr.length = n := hx.1
      apply List.ext_getElem
      · simp [hlen2]
      · intro i h1 h2
        have hi : i < n := by simpa using h1
        rw [List.getElem_map, List.getElem_map, List.getElem_range]
        rw [List.getD_eq_getElem?_getD, List.getElem?_eq_getElem (by omega : i < tr.length)]
        rfl

/-! ## enqueue lemmas -/

theorem enqueue_of_mem (b : Builder) (ps : ParallelState)
    (hcorr : b.seen = seenFrom 0 b.states) (h : ps ∈ b.states) :
    b.enqueue ps = (b, psIdx b.states ps) := by
  unfold Builder.enqueue
  rw [hcorr, lookupSeen_seenFrom b.states ps 0, if_pos h]
  simp

theorem enqueue_of_not_mem (b : Builder) (ps : ParallelState)
    (hcorr : b.seen = seenFrom 0 b.states) (h : ¬ ps ∈ b.states) :
    b.enqueue ps = (⟨b.seen ++ [(ps, b.states.length)], b.states ++ [ps],
      b.merge_table.resize (b.states.length + 1)⟩, b.states.length) := by
  unfold Builder.enqueue
  rw [hcorr, lookupSeen_seenFrom b.states ps 0, if_neg h]

theorem enqueue_facts (n : Nat) (b : Builder) (ps : ParallelState)
    (hI : BInv n b) (hw : ps.Wb n) :
    BInv n (b.enqueue ps).1 ∧
    (∃ ext, (b.enqueue ps).1.states = b.states ++ ext) ∧
    (b.enqueue ps).2 < (b.enqueue ps).1.states.length ∧
    (b.enqueue ps).1.states.getD (b.enqueue ps).2 default = ps ∧
    ps ∈ (b.enqueue ps).1.states ∧
    psIdx (b.enqueue ps).1.states ps = (b.enqueue ps).2 ∧
    (∀ a c, a < b.merge_table.num_states → c < b.merge_table.num_states →
      (b.enqueue ps).1.merge_table.get a c = b.merge_table.get a c) := by
  obtain ⟨hcorr, hnd, hwb, htnum, htcap, htlen⟩ := hI
  by_cases h : ps ∈ b.states
  · rw [enqueue_of_mem b ps hcorr h]
    refine ⟨⟨hcorr, hnd, hwb, htnum, htcap, htlen⟩, ⟨[], by simp⟩,
      psIdx_lt_of_mem b.states ps h, getD_psIdx b.states ps h default, h,
      rfl, fun a c _ _ => rfl⟩
  · rw [enqueue_of_not_mem b ps hcorr h]
    have hdisj : b.states.Disjoint [ps] := by
      intro a ha hb
      rw [List.mem_singleton] at hb
      exact h (hb ▸ ha)
    refine ⟨⟨?_, ?_, ?_, ?_, ?_, ?_⟩, ⟨[ps], rfl⟩, ?_, ?_, ?_, ?_, ?_⟩
    · show b.seen ++ [(ps, b.states.length)] = seenFrom 0 (b.states ++ [ps])
      rw [seenFrom_append_single b.states ps 0, ← hcorr]
      simp
    · exact hnd.append (List.nodup_singleton ps) hdisj
    · intro x hx
      rcases List.mem_append.mp hx with hx | hx
      · exact hwb x hx
      · rw [List.mem_singleton] at hx
        exact hx ▸ hw
    · show (b.merge_table.resize (b.states.length + 1)).num_states = (b.states ++ [ps]).length
      rw [resize_num_states]
      simp
    · show (b.merge_table.resize (b.states.length + 1)).num_states ≤
        (b.merge_table.resize (b.states.length + 1)).capacity
      rw [resize_num_states]
      exact resize_capacity_ge b.merge_table (b.states.length + 1)
    · exact resize_length b.merge_table (b.states.length + 1) htlen
    · show b.states.length < (b.states ++ [ps]).length
      simp
    · show (b.states ++ [ps]).getD b.states.length default = ps
      rw [getD_append_ge b.states [ps] b.states.length default le_rfl]
      simp
    · exact List.mem_append.mpr (Or.inr (List.mem_singleton.mpr rfl))
    · exact psIdx_append_right b.states ps h
    · intro a c ha hc
      exact resize_get_preserved b.merge_table (b.states.length + 1) htcap a c ha hc

/-! ## Covered stability -/

theorem mergeResult_lt (states : List ParallelState) (idIdx a c : Nat)
    (ha : a < states.length) (hc : c < states.length)
    (hmem : a ≠ idIdx → c ≠ idIdx →
      ((states.getD a default).merge (states.getD c default)) ∈ states) :
    mergeResult states idIdx a c < states.length := by
  unfold mergeResult
  by_cases h1 : a = idIdx
  · rw [if_pos h1]; exact hc
  · rw [if_neg h1]
    by_cases h2 : c = idIdx
    · rw [if_pos h2]; exact ha
    · rw [if_neg h2]
      exact psIdx_lt_of_mem states _ (hmem h1 h2)

theorem mergeResult_append (states ext : List ParallelState) (idIdx a c : Nat)
    (ha : a < states.length) (hc : c < states.length)
    (hmem : a ≠ idIdx → c ≠ idIdx →
      ((states.getD a default).merge (states.getD c default)) ∈ states) :
    mergeResult (states ++ ext) idIdx a c = mergeResult states idIdx a c := by
  unfold mergeResult
  by_cases h1 : a = idIdx
  · rw [if_pos h1, if_pos h1]
  · rw [if_neg h1, if_neg h1]
    by_cases h2 : c = idIdx
    · rw [if_pos h2, if_pos h2]
    · rw [if_neg h2, if_neg h2]
      rw [getD_append_lt _ _ _ _ ha, getD_append_lt _ _ _ _ hc]
      exact psIdx_append_of_mem states ext _ (hmem h1 h2)

theorem mergeSpec_append (states ext : List ParallelState) (idIdx a c : Nat)
    (ha : a < states.length) (hc : c < states.length)
    (hmem : a ≠ idIdx → c ≠ idIdx →
      ((states.getD a default).merge (states.getD c default)) ∈ states) :
    mergeSpec (states ++ ext) idIdx a c = mergeSpec states idIdx a c := by
  unfold mergeSpec
  rw [mergeResult_append states ext idIdx a c ha hc hmem]
  rw [getD_append_lt _ _ _ _ (mergeResult_lt states idIdx a c ha hc hmem)]

theorem covered_stable (b b2 : Builder) (idIdx a c : Nat)
    (hst : ∃ ext, b2.states = b.states ++ ext)
    (hget : b2.merge_table.get a c = b.merge_table.get a c)
    (ha : a < b.states.length) (hc : c < b.states.length)
    (hcov : Covered b idIdx a c) : Covered b2 idIdx a c := by
  obtain ⟨ext, hext⟩ := hst
  constructor
  · intro h1 h2
    rw [hext, getD_append_lt _ _ _ _ ha, getD_append_lt _ _ _ _ hc]
    exact List.mem_append.mpr (Or.inl (hcov.1 h1 h2))
  · rw [hget, hext, mergeSpec_append _ _ _ _ _ ha hc hcov.1]
    exact hcov.2

/-! ## mergeStep lemmas -/

theorem set_entry_BInv (n : Nat) (b : Builder) (i j : Nat) (v : Transition) (hI : BInv n b) :
    BInv n { b with merge_table := b.merge_table.set i j v } := by
  obtain ⟨hcorr, hnd, hwb, htnum, htcap, htlen⟩ := hI
  refine ⟨hcorr, hnd, hwb, htnum, htcap, ?_⟩
  show (b.merge_table.set i j v).merge_table.length = _
  simp only [MergeTable.set, List.length_set]
  exact htlen

theorem builder_index_lt (n : Nat) (b : Builder) (i j : Nat) (hI : BInv n b)
    (hi : i < b.states.length) (hj : j < b.states.length) :
    b.merge_table.index i j < b.merge_table.merge_table.length := by
  obtain ⟨-, -, -, htnum, htcap, htlen⟩ := hI
  rw [htlen]
  exact index_lt_sq i j _ (by omega) (by omega)

theorem builder_cap_lt (n : Nat) (b : Builder) (i : Nat) (hI : BInv n b)
    (hi : i < b.states.length) : i < b.merge_table.capacity := by
  obtain ⟨-, -, -, htnum, htcap, -⟩ := hI
  omega

theorem set_entry_covered (n idIdx : Nat) (b : Builder) (i j : Nat)
    (hI : BInv n b) (hi : i < b.states.length) (hj : j < b.states.length)
    (hmem : i ≠ idIdx → j ≠ idIdx →
      ((b.states.getD i default).merge (b.states.getD j default)) ∈ b.states) :
    Covered { b with merge_table := b.merge_table.set i j (mergeSpec b.states idIdx i j) }
        idIdx i j ∧
    BInv n { b with merge_table := b.merge_table.set i j (mergeSpec b.states idIdx i j) } ∧
    (∀ a c, a < b.states.length → c < b.states.length → Covered b idIdx a c →
      Covered { b with merge_table := b.merge_table.set i j (mergeSpec b.states idIdx i j) }
        idIdx a c) := by
  have hcovij : Covered
      { b with merge_table := b.merge_table.set i j (mergeSpec b.states idIdx i j) }
      idIdx i j := by
    constructor
    · intro hni hnj
      exact hmem hni hnj
    · exact get_set_self b.merge_table i j _ (builder_index_lt n b i j hI hi hj)
  refine ⟨hcovij, set_entry_BInv n b i j _ hI, ?_⟩
  intro a c ha hc hcov
  by_cases hac : a = i ∧ c = j
  · obtain ⟨rfl, rfl⟩ := hac
    exact hcovij
  · refine covered_stable b _ idIdx a c ⟨[], by simp⟩ ?_ ha hc hcov
    exact get_set_other b.merge_table i j a c _ (builder_cap_lt n b i hI hi)
      (builder_cap_lt n b a hI ha) hac

theorem mergeStep_facts (n idIdx : Nat) (b : Builder) (i j : Nat)
    (hI : BInv n b) (hi : i < b.states.length) (hj : j < b.states.length) :
    BInv n (mergeStep idIdx b i j) ∧
    (∃ ext, (mergeStep idIdx b i j).states = b.states ++ ext) ∧
    Covered (mergeStep idIdx b i j) idIdx i j ∧
    (∀ a c, a < b.states.length → c < b.states.length → Covered b idIdx a c →
      Covered (mergeStep idIdx b i j) idIdx a c) := by
  by_cases h1 : i = idIdx
  · have hval : mergeSpec b.states idIdx i j =
        ⟨j, ((b.states.getD j default).transitions.getD START default).produces_lexeme⟩ := by
      unfold mergeSpec mergeResult
      rw [if_pos h1]
    have heq : mergeStep idIdx b i j =
        { b with merge_table := b.merge_table.set i j (mergeSpec b.states idIdx i j) } := by
      simp only [mergeStep, if_pos h1, hval]
    obtain ⟨hcov, hIb, hpres⟩ :=
      set_entry_covered n idIdx b i j hI hi hj (fun hni _ => absurd h1 hni)
    rw [heq]
    exact ⟨hIb, ⟨[], by simp⟩, hcov, hpres⟩
  · by_cases h2 : j = idIdx
    · have hval : mergeSpec b.states idIdx i j =
          ⟨i, ((b.states.getD i default).transitions.getD START default).produces_lexeme⟩ := by
        unfold mergeSpec mergeResult
        rw [if_neg h1, if_pos h2]
      have heq : mergeStep idIdx b i j =
          { b with merge_table := b.merge_table.set i j (mergeSpec b.states idIdx i j) } := by
        simp only [mergeStep, if_neg h1, if_pos h2, hval]
      obtain ⟨hcov, hIb, hpres⟩ :=
        set_entry_covered n idIdx b i j hI hi hj (fun _ hnj => absurd h2 hnj)
      rw [heq]
      exact ⟨hIb, ⟨[], by simp⟩, hcov, hpres⟩
    · -- general branch: compose, intern, store
      obtain ⟨hcorr, hnd, hwb, htnum, htcap, htlen⟩ := hI
      have hI2 : BInv n b := ⟨hcorr, hnd, hwb, htnum, htcap, htlen⟩
      set ps := (b.states.getD i default).merge (b.states.getD j default) with hps
      have hpsw : ps.Wb n :=
        merge_Wb _ _ n (hwb _ (getD_mem_of_lt hi)) (hwb _ (getD_mem_of_lt hj))
      obtain ⟨hIb1, ⟨ext, hext⟩, hq2, hgetq2, hmemq, hpsidx, hgets⟩ :=
        enqueue_facts n b ps hI2 hpsw
      set q := b.enqueue ps with hqdef
      have hlen1 : b.states.length ≤ q.1.states.length := by
        rw [hext]
        simp
      have hi1 : i < q.1.states.length := by omega
      have hj1 : j < q.1.states.length := by omega
      have hgetDi : q.1.states.getD i default = b.states.getD i default := by
        rw [hext, getD_append_lt _ _ _ _ hi]
      have hgetDj : q.1.states.getD j default = b.states.getD j default := by
        rw [hext, getD_append_lt _ _ _ _ hj]
      have hmem1 : ((q.1.states.getD i default).merge (q.1.states.getD j default)) ∈
          q.1.states := by
        rw [hgetDi, hgetDj, ← hps]
        exact hmemq
      have hval : mergeSpec q.1.states idIdx i j =
          ⟨q.2, ((q.1.states.getD q.2 default).transitions.getD START default).produces_lexeme⟩ := by
        have hres : mergeResult q.1.states idIdx i j = q.2 := by
          unfold mergeResult
          rw [if_neg h1, if_neg h2, hgetDi, hgetDj, ← hps]
          exact hpsidx
        unfold mergeSpec
        rw [hres]
      have heq : mergeStep idIdx b i j =
          { q.1 with merge_table := q.1.merge_table.set i j (mergeSpec q.1.states idIdx i j) } := by
        simp only [mergeStep, if_neg h1, if_neg h2, ← hps, ← hqdef, hval]
      obtain ⟨hcov, hIb2, hpres⟩ := set_entry_covered n idIdx q.1 i j hIb1 hi1 hj1
        (fun _ _ => hmem1)
      rw [heq]
      refine ⟨hIb2, ⟨ext, by rw [hext]⟩, hcov, ?_⟩
      intro a c ha hc hcov0
      refine hpres a c (by omega) (by omega) ?_
      refine covered_stable b q.1 idIdx a c ⟨ext, hext⟩ ?_ ha hc hcov0
      exact hgets a c (by omega) (by omega)

/-! ## saturation loop lemmas -/

theorem innerLoop_facts (n idIdx : Nat) :
    ∀ (fuel : Nat) (b : Builder) (i j : Nat) (b2 : Builder),
    innerLoop idIdx fuel b i j = some b2 →
    BInv n b → i < b.states.length →
    (∀ j2, j2 < j → Covered b idIdx i j2 ∧ Covered b idIdx j2 i) →
    BInv n b2 ∧
    (∃ ext, b2.states = b.states ++ ext) ∧
    (∀ a c, a < b.states.length → c < b.states.length → Covered b idIdx a c →
      Covered b2 idIdx a c) ∧
    (∀ j2, j2 < b2.states.length → Covered b2 idIdx i j2 ∧ Covered b2 idIdx j2 i) := by
  intro fuel
  induction fuel with
  | zero =>
      intro b i j b2 hrun
      simp [innerLoop] at hrun
  | succ fuel ih =>
      intro b i j b2 hrun hI hi hpre
      rw [innerLoop] at hrun
      by_cases hj : j < b.states.length
      · rw [if_pos hj] at hrun
        obtain ⟨hIA, ⟨extA, hextA⟩, hcovA, hpresA⟩ := mergeStep_facts n idIdx b i j hI hi hj
        set bA := mergeStep idIdx b i j with hbA
        have hlenA : b.states.length ≤ bA.states.length := by
          rw [hextA]
          simp
        have hiA : i < bA.states.length := by omega
        have hjA : j < bA.states.length := by omega
        obtain ⟨hIB, ⟨extB, hextB⟩, hcovB, hpresB⟩ := mergeStep_facts n idIdx bA j i hIA hjA hiA
        set bB := mergeStep idIdx bA j i with hbB
        have hlenB : bA.states.length ≤ bB.states.length := by
          rw [hextB]
          simp
        have hiB : i < bB.states.length := by omega
        have hpreB : ∀ j2, j2 < j + 1 → Covered bB idIdx i j2 ∧ Covered bB idIdx j2 i := by
          intro j2 hj2
          by_cases hj2j : j2 = j
          · subst hj2j
            exact ⟨hpresB i j2 hiA hjA hcovA, hcovB⟩
          · have hj2lt : j2 < j := by omega
            have h0 := hpre j2 hj2lt
            have hj2b : j2 < b.states.length := by omega
            constructor
            · exact hpresB i j2 hiA (by omega) (hpresA i j2 hi hj2b h0.1)
            · exact hpresB j2 i (by omega) hiA (hpresA j2 i hj2b hi h0.2)
        obtain ⟨hI2, ⟨ext2, hext2⟩, hpres2, hcov2⟩ := ih bB i (j + 1) b2 hrun hIB hiB hpreB
        refine ⟨hI2, ⟨extA ++ extB ++ ext2, ?_⟩, ?_, hcov2⟩
        · rw [hext2, hextB, hextA]
          simp [List.append_assoc]
        · intro a c ha hc hcov0
          refine hpres2 a c (by omega) (by omega) ?_
          exact hpresB a c (by omega) (by omega) (hpresA a c ha hc hcov0)
      · rw [if_neg hj] at hrun
        have hb2 : b2 = b := by
          cases hrun
          rfl
        subst hb2
        refine ⟨hI, ⟨[], by simp⟩, fun a c _ _ h => h, ?_⟩
        intro j2 hj2
        exact hpre j2 (by omega)

theorem outerLoop_facts (n idIdx : Nat) :
    ∀ (fuel : Nat) (b : Builder) (i : Nat) (b2 : Builder),
    outerLoop idIdx fuel b i = some b2 →
    BInv n b →
    (∀ a c, a < i → c < i → a < b.states.length → c < b.states.length →
      Covered b idIdx a c) →
    BInv n b2 ∧ (∃ ext, b2.states = b.states ++ ext) ∧
    (∀ a c, a < b2.states.length → c < b2.states.length → Covered b2 idIdx a c) := by
  intro fuel
  induction fuel with
  | zero =>
      intro b i b2 hrun
      simp [outerLoop] at hrun
  | succ fuel ih =>
      intro b i b2 hrun hI hinv
      rw [outerLoop] at hrun
      by_cases hi : i < b.states.length
      · rw [if_pos hi] at hrun
        cases hmid : innerLoop idIdx (fuel + 1) b i 0 with
        | none => rw [hmid] at hrun; cases hrun
        | some bMid =>
            rw [hmid] at hrun
            obtain ⟨hIMid, ⟨extM, hextM⟩, hpresM, hcovM⟩ :=
              innerLoop_facts n idIdx (fuel + 1) b i 0 bMid hmid hI hi
                (fun j2 hj2 => absurd hj2 (by omega))
            have hlenM : b.states.length ≤ bMid.states.length := by
              rw [hextM]
              simp
            have hinvM : ∀ a c, a < i + 1 → c < i + 1 → a < bMid.states.length →
                c < bMid.states.length → Covered bMid idIdx a c := by
              intro a c ha hc haM hcM
              by_cases hai : a = i
              · subst hai
                exact (hcovM c hcM).1
              · by_cases hci : c = i
                · subst hci
                  exact (hcovM a haM).2
                · have ha2 : a < i := by omega
                  have hc2 : c < i := by omega
                  exact hpresM a c (by omega) (by omega)
                    (hinv a c ha2 hc2 (by omega) (by omega))
            obtain ⟨hI2, ⟨ext2, hext2⟩, hcov2⟩ := ih bMid (i + 1) b2 hrun hIMid hinvM
            refine ⟨hI2, ⟨extM ++ ext2, ?_⟩, hcov2⟩
            rw [hext2, hextM]
            simp [List.append_assoc]
      · rw [if_neg hi] at hrun
        have hb2 : b2 = b := by
          cases hrun
          rfl
        subst hb2
        refine ⟨hI, ⟨[], by simp⟩, ?_⟩
        intro a c ha hc
        exact hinv a c (by omega) (by omega) ha hc

/-! ## seeding lemmas -/

theorem mem_set_cases {α : Type} (l : List α) (m : Nat) (v x : α) (h : x ∈ l.set m v) :
    x = v ∨ x ∈ l := by
  induction l generalizing m with
  | nil => simp at h
  | cons a l ih =>
      cases m with
      | zero =>
          cases h with
          | head => exact Or.inl rfl
          | tail _ hm => exact Or.inr (List.mem_cons_of_mem a hm)
      | succ m =>
          cases h with
          | head => exact Or.inr (List.mem_cons_self _ _)
          | tail _ hm =>
              rcases ih m hm with h2 | h2
              · exact Or.inl h2
              · exact Or.inr (List.mem_cons_of_mem a h2)

theorem getD_replicate {α : Type} (a d : α) (n k : Nat) :
    (List.replicate n a).getD k d = if k < n then a else d := by
  induction n generalizing k with
  | zero => simp
  | succ n ih =>
      cases k with
      | zero => simp [List.replicate]
      | succ k =>
          simp only [List.replicate, List.getD_cons_succ, ih]
          by_cases h : k < n
          · rw [if_pos h, if_pos (by omega)]
          · rw [if_neg h, if_neg (by omega)]

theorem ofSize_getD (n k : Nat) :
    (ParallelState.ofSize n).transitions.getD k default = Transition.init := by
  show (List.replicate n Transition.init).getD k default = Transition.init
  rw [getD_replicate]
  split <;> rfl

theorem find?_append_some {α : Type} (l1 l2 : List α) (p : α → Bool) (x : α)
    (h : l1.find? p = some x) : (l1 ++ l2).find? p = some x := by
  induction l1 with
  | nil => simp [List.find?] at h
  | cons a l ih =>
      by_cases hp : p a
      · rw [List.find?_cons_of_pos _ hp] at h
        rw [List.cons_append, List.find?_cons_of_pos _ hp]
        exact h
      · rw [List.find?_cons_of_neg _ (by simpa using hp)] at h
        rw [List.cons_append, List.find?_cons_of_neg _ (by simpa using hp)]
        exact ih h

theorem find?_append_none {α : Type} (l1 l2 : List α) (p : α → Bool)
    (h : l1.find? p = none) : (l1 ++ l2).find? p = l2.find? p := by
  induction l1 with
  | nil => simp
  | cons a l ih =>
      by_cases hp : p a
      · rw [List.find?_cons_of_pos _ hp] at h
        cases h
      · rw [List.find?_cons_of_neg _ (by simpa using hp)] at h
        rw [List.cons_append, List.find?_cons_of_neg _ (by simpa using hp)]
        exact ih h

theorem find?_none_of_all {α : Type} (l : List α) (p : α → Bool)
    (h : ∀ x ∈ l, ¬ p x = true) : l.find? p = none := by
  induction l with
  | nil => simp
  | cons a l ih =>
      rw [List.find?_cons_of_neg _ (h a (List.mem_cons_self a l))]
      exact ih fun x hx => h x (List.mem_cons_of_mem a hx)

theorem find?_map_eq {α β : Type} (l : List α) (f : α → β) (p : β → Bool) :
    (l.map f).find? p = (l.find? fun x => p (f x)).map f := by
  induction l with
  | nil => simp
  | cons a l ih =>
      simp only [List.map_cons, List.find?_cons, ih]
      by_cases hp : p (f a)
      · simp [hp]
      · simp [hp]

theorem transListFrom_src_bounds :
    ∀ (l : List FsaState) (k : Nat) (e : Nat × FsaTransition),
    e ∈ transListFrom k l → k ≤ e.1 ∧ e.1 < k + l.length := by
  intro l
  induction l with
  | nil => intro k e h; simp [transListFrom] at h
  | cons st rest ih =>
      intro k e h
      rcases List.mem_append.mp h with h2 | h2
      · obtain ⟨t, -, rfl⟩ := List.mem_map.mp h2
        simp only [List.length_cons]
        omega
      · have := ih (k + 1) e h2
        simp only [List.length_cons]
        omega

theorem transListFrom_find_eq (b : Nat) :
    ∀ (l : List FsaState) (k src : Nat), k ≤ src → src < k + l.length →
    (transListFrom k l).find? (fun e => decide (e.1 = src) && decide (e.2.sym = b)) =
      ((l.getD (src - k) default).transitions.find? fun t => decide (t.sym = b)).map
        fun t => (src, t) := by
  intro l
  induction l with
  | nil => intro k src h1 h2; simp at h2; omega
  | cons st rest ih =>
      intro k src h1 h2
      show ((st.transitions.map fun t => (k, t)) ++ transListFrom (k + 1) rest).find? _ = _
      by_cases hsrc : src = k
      · subst hsrc
        have hpred : (fun t : FsaTransition =>
            (fun e : Nat × FsaTransition => decide (e.1 = src) && decide (e.2.sym = b))
              ((fun t => (src, t)) t)) = fun t => decide (t.sym = b) := by
          funext t
          simp
        cases hfind : st.transitions.find? (fun t => decide (t.sym = b)) with
        | some t =>
            have hblk : (st.transitions.map fun t => (src, t)).find?
                (fun e => decide (e.1 = src) && decide (e.2.sym = b)) = some (src, t) := by
              rw [find?_map_eq, hpred, hfind]
              rfl
            rw [find?_append_some _ _ _ _ hblk]
            simp [hfind]
        | none =>
            have hblk : (st.transitions.map fun t => (src, t)).find?
                (fun e => decide (e.1 = src) && decide (e.2.sym = b)) = none := by
              rw [find?_map_eq, hpred, hfind]
              rfl
            rw [find?_append_none _ _ _ hblk]
            rw [find?_none_of_all]
            · simp [hfind]
            · intro x hx
              have := (transListFrom_src_bounds rest (src + 1) x hx).1
              simp only [Bool.and_eq_true, decide_eq_true_eq]
              intro hcon
              omega
      · have hblk : (st.transitions.map fun t => (k, t)).find?
            (fun e => decide (e.1 = src) && decide (e.2.sym = b)) = none := by
          apply find?_none_of_all
          intro x hx
          obtain ⟨t, -, rfl⟩ := List.mem_map.mp hx
          simp only [Bool.and_eq_true, decide_eq_true_eq]
          intro hcon
          exact hsrc (hcon.1.symm)
        rw [find?_append_none _ _ _ hblk]
        have hk1 : k + 1 ≤ src := by omega
        rw [ih (k + 1) src hk1 (by simp at h2 ⊢; omega)]
        have hidx : src - k = (src - (k + 1)) + 1 := by omega
        rw [hidx]
        rfl

theorem seqStep_eq_transList_find (dfa : FiniteStateAutomaton) (s b : Nat)
    (hs : s < dfa.num_states) :
    seqStep dfa s b =
      match dfa.transList.find? (fun e => decide (e.1 = s) && decide (e.2.sym = b)) with
      | some e => e.2.dst
      | none => REJECT := by
  unfold seqStep FiniteStateAutomaton.transList
  rw [transListFrom_find_eq b dfa.states 0 s (by omega)
    (by simpa using hs)]
  simp only [Nat.sub_zero]
  cases hf : (dfa.states.getD s default).transitions.find? fun t => decide (t.sym = b) <;>
    simp [hf]

theorem seed_fold_length (L : List (Nat × FsaTransition)) :
    ∀ acc : List ParallelState, (L.foldl applyFsaTransition acc).length = acc.length := by
  induction L with
  | nil => intro acc; rfl
  | cons e L ih =>
      intro acc
      rw [List.foldl_cons, ih]
      simp [applyFsaTransition]

theorem seed_fold_width (n : Nat) (L : List (Nat × FsaTransition)) :
    ∀ acc : List ParallelState,
    (∀ e ∈ L, e.2.sym < acc.length) →
    (∀ ps ∈ acc, ps.transitions.length = n) →
    ∀ ps ∈ L.foldl applyFsaTransition acc, ps.transitions.length = n := by
  induction L with
  | nil => intro acc _ h; exact h
  | cons e L ih =>
      intro acc hb h
      rw [List.foldl_cons]
      refine ih (applyFsaTransition acc e) ?_ ?_
      · intro e2 he2
        have : (applyFsaTransition acc e).length = acc.length := by simp [applyFsaTransition]
        rw [this]
        exact hb e2 (List.mem_cons_of_mem e he2)
      · intro ps hps
        rcases mem_set_cases _ _ _ _ hps with h2 | h2
        · subst h2
          show ((acc.getD e.2.sym default).transitions.set e.1 _).length = n
          rw [List.length_set]
          exact h _ (getD_mem_of_lt (hb e (List.mem_cons_self _ _)))
        · exact h ps h2

theorem seed_fold_entries (n : Nat) (L : List (Nat × FsaTransition)) :
    ∀ acc : List ParallelState,
    (∀ e ∈ L, e.2.sym < acc.length ∧ e.2.dst < n) →
    (∀ ps ∈ acc, ∀ t ∈ ps.transitions, t.result_state < n) →
    ∀ ps ∈ L.foldl applyFsaTransition acc, ∀ t ∈ ps.transitions, t.result_state < n := by
  induction L with
  | nil => intro acc _ h; exact h
  | cons e L ih =>
      intro acc hb h
      rw [List.foldl_cons]
      refine ih (applyFsaTransition acc e) ?_ ?_
      · intro e2 he2
        have hlen : (applyFsaTransition acc e).length = acc.length := by
          simp [applyFsaTransition]
        rw [hlen]
        exact hb e2 (List.mem_cons_of_mem e he2)
      · intro ps hps t ht
        rcases mem_set_cases _ _ _ _ hps with h2 | h2
        · subst h2
          simp only at ht
          rcases mem_set_cases _ _ _ _ ht with h3 | h3
          · subst h3
            exact (hb e (List.mem_cons_self _ _)).2
          · exact h _ (getD_mem_of_lt (hb e (List.mem_cons_self _ _)).1) t h3
        · exact h ps h2 t ht

theorem seed_fold_getD (n : Nat) (L : List (Nat × FsaTransition)) :
    ∀ (acc : List ParallelState) (sym src : Nat),
    (L.map fun e => (e.1, e.2.sym)).Nodup →
    (∀ e ∈ L, e.2.sym < acc.length ∧ e.1 < n) →
    (∀ ps ∈ acc, ps.transitions.length = n) →
    ((L.foldl applyFsaTransition acc).getD sym default).transitions.getD src default =
      (match L.find? (fun e => decide (e.1 = src) && decide (e.2.sym = sym)) with
       | some e => ⟨e.2.dst, e.2.produces_lexeme⟩
       | none => (acc.getD sym default).transitions.getD src default) := by
  induction L with
  | nil => intro acc sym src _ _ _; rfl
  | cons e L ih =>
      intro acc sym src hnd hb hw
      rw [List.foldl_cons]
      have hlen2 : (applyFsaTransition acc e).length = acc.length := by
        simp [applyFsaTransition]
      have hsymlt : e.2.sym < acc.length := (hb e (List.mem_cons_self _ _)).1
      have hw2 : ∀ ps ∈ applyFsaTransition acc e, ps.transitions.length = n := by
        intro ps hps
        rcases mem_set_cases _ _ _ _ hps with h2 | h2
        · subst h2
          show ((acc.getD e.2.sym default).transitions.set e.1 _).length = n
          rw [List.length_set]
          exact hw _ (getD_mem_of_lt hsymlt)
        · exact hw ps h2
      have hb2 : ∀ e2 ∈ L, e2.2.sym < (applyFsaTransition acc e).length ∧ e2.1 < n := by
        intro e2 he2
        rw [hlen2]
        exact hb e2 (List.mem_cons_of_mem e he2)
      rw [ih (applyFsaTransition acc e) sym src (List.nodup_cons.mp hnd).2 hb2 hw2]
      by_cases hpe : e.1 = src ∧ e.2.sym = sym
      · have hfcons : (e :: L).find?
            (fun e2 => decide (e2.1 = src) && decide (e2.2.sym = sym)) = some e := by
          rw [List.find?_cons_of_pos]
          simp [hpe.1, hpe.2]
        have hfL : L.find? (fun e2 => decide (e2.1 = src) && decide (e2.2.sym = sym)) = none := by
          apply find?_none_of_all
          intro x hx
          simp only [Bool.and_eq_true, decide_eq_true_eq]
          intro hcon
          have hkey : (e.1, e.2.sym) ∈ L.map fun e2 => (e2.1, e2.2.sym) := by
            rw [hpe.1, hpe.2]
            exact List.mem_map.mpr ⟨x, hx, by rw [hcon.1, hcon.2]⟩
          exact (List.nodup_cons.mp hnd).1 hkey
        rw [hfcons, hfL]
        show ((applyFsaTransition acc e).getD sym default).transitions.getD src default = _
        simp only [applyFsaTransition]
        rw [getD_set, if_pos ⟨hpe.2.symm, by omega⟩]
        have hlen3 : src < (acc.getD e.2.sym default).transitions.length := by
          rw [hw _ (getD_mem_of_lt hsymlt), ← hpe.1]
          exact (hb e (List.mem_cons_self _ _)).2
        rw [getD_set, if_pos ⟨hpe.1.symm, hlen3⟩]
      · have hfcons : (e :: L).find?
            (fun e2 => decide (e2.1 = src) && decide (e2.2.sym = sym)) =
            L.find? (fun e2 => decide (e2.1 = src) && decide (e2.2.sym = sym)) := by
          rw [List.find?_cons_of_neg]
          simp only [Bool.and_eq_true, decide_eq_true_eq]
          exact fun hc => hpe hc
        rw [hfcons]
        cases hfL : L.find? (fun e2 => decide (e2.1 = src) && decide (e2.2.sym = sym)) with
        | some x => rfl
        | none =>
            show ((applyFsaTransition acc e).getD sym default).transitions.getD src default = _
            simp only [applyFsaTransition]
            rw [getD_set]
            by_cases hsym : sym = e.2.sym ∧ sym < acc.length
            · rw [if_pos hsym]
              have hsrc : ¬ src = e.1 := by
                intro hc
                exact hpe ⟨hc.symm, hsym.1.symm⟩
              rw [getD_set, if_neg (fun hcon => hsrc hcon.1), hsym.1]
            · rw [if_neg hsym]

theorem transList_entry_bounds (dfa : FiniteStateAutomaton) (hwf : FsaWF dfa) :
    ∀ e ∈ dfa.transList, e.2.sym < MAX_SYM + 1 ∧ e.1 < dfa.num_states ∧
      e.2.dst < dfa.num_states := by
  intro e he
  have h1 := hwf.2.2.2 e he
  have h2 := transListFrom_src_bounds dfa.states 0 e he
  exact ⟨by omega, by simpa using h2.2, h1.2⟩

theorem seedInitial_length (dfa : FiniteStateAutomaton) :
    (seedInitial dfa).length = MAX_SYM + 1 := by
  unfold seedInitial
  rw [seed_fold_length]
  simp

theorem seedInitial_getD_slot (dfa : FiniteStateAutomaton) (hwf : FsaWF dfa)
    (sym src : Nat) (hsym : sym < MAX_SYM + 1) :
    ((seedInitial dfa).getD sym default).transitions.getD src default =
      (match dfa.transList.find? (fun e => decide (e.1 = src) && decide (e.2.sym = sym)) with
       | some e => ⟨e.2.dst, e.2.produces_lexeme⟩
       | none => Transition.init) := by
  unfold seedInitial
  rw [seed_fold_getD dfa.num_states dfa.transList _ sym src hwf.2.2.1 ?_ ?_]
  · cases hf : dfa.transList.find?
        (fun e => decide (e.1 = src) && decide (e.2.sym = sym)) with
    | some e => rfl
    | none =>
        rw [getD_replicate, if_pos (by simpa using hsym)]
        exact ofSize_getD dfa.num_states src
  · intro e he
    have := transList_entry_bounds dfa hwf e he
    constructor
    · simpa using this.1
    · exact this.2.1
  · intro ps hps
    rw [List.eq_of_mem_replicate hps]
    simp [ParallelState.ofSize]

theorem seedInitial_Wb (dfa : FiniteStateAutomaton) (hwf : FsaWF dfa) :
    ∀ ps ∈ seedInitial dfa, ps.Wb dfa.num_states := by
  intro ps hps
  constructor
  · refine seed_fold_width dfa.num_states dfa.transList _ ?_ ?_ ps hps
    · intro e he
      have := (transList_entry_bounds dfa hwf e he).1
      simpa using this
    · intro ps2 hps2
      rw [List.eq_of_mem_replicate hps2]
      simp [ParallelState.ofSize]
  · intro t ht
    refine seed_fold_entries dfa.num_states dfa.transList _ ?_ ?_ ps hps t ht
    · intro e he
      have := transList_entry_bounds dfa hwf e he
      exact ⟨by simpa using this.1, this.2.2⟩
    · intro ps2 hps2 t2 ht2
      rw [List.eq_of_mem_replicate hps2] at ht2
      rw [List.eq_of_mem_replicate (show t2 ∈ List.replicate dfa.num_states Transition.init
        from ht2)]
      show REJECT < dfa.num_states
      exact hwf.1

theorem seeded_resApp (dfa : FiniteStateAutomaton) (hwf : FsaWF dfa) (sym src : Nat)
    (hsym : sym ≤ MAX_SYM) (hsrc : src < dfa.num_states) :
    ((seedInitial dfa).getD sym default).resApp src = seqStep dfa src sym := by
  unfold ParallelState.resApp
  rw [seedInitial_getD_slot dfa hwf sym src (by omega),
    seqStep_eq_transList_find dfa src sym hsrc]
  cases hf : dfa.transList.find? (fun e => decide (e.1 = src) && decide (e.2.sym = sym)) with
  | some e => rfl
  | none => rfl

/-! ## interning of the initial states -/

theorem internInitial_facts (n : Nat) (l : List ParallelState) :
    ∀ b : Builder, BInv n b → (∀ ps ∈ l, ps.Wb n) →
    BInv n (internInitial b l).1 ∧
    (∃ ext, (internInitial b l).1.states = b.states ++ ext) ∧
    (internInitial b l).2.length = l.length ∧
    (∀ t, t < l.length →
      ((internInitial b l).2.getD t default).result_state <
        (internInitial b l).1.states.length ∧
      (internInitial b l).1.states.getD
        ((internInitial b l).2.getD t default).result_state default = l.getD t default ∧
      ((internInitial b l).2.getD t default).produces_lexeme =
        ((l.getD t default).transitions.getD START default).produces_lexeme) := by
  induction l with
  | nil =>
      intro b hI _
      exact ⟨hI, ⟨[], by simp [internInitial]⟩, rfl, fun t ht => absurd ht (by simp)⟩
  | cons state rest ih =>
      intro b hI hw
      obtain ⟨hIq, ⟨ext1, hext1⟩, hq2, hgetq2, -, -, -⟩ :=
        enqueue_facts n b state hI (hw state (List.mem_cons_self _ _))
      obtain ⟨hIr, ⟨ext2, hext2⟩, hrlen, hrfacts⟩ :=
        ih (b.enqueue state).1 hIq (fun ps hps => hw ps (List.mem_cons_of_mem _ hps))
      have hres : internInitial b (state :: rest) =
          ((internInitial (b.enqueue state).1 rest).1,
            ⟨(b.enqueue state).2, (state.transitions.getD START default).produces_lexeme⟩ ::
              (internInitial (b.enqueue state).1 rest).2) := by
        simp only [internInitial]
      rw [hres]
      refine ⟨hIr, ⟨ext1 ++ ext2, by rw [hext2, hext1, List.append_assoc]⟩, by simp [hrlen], ?_⟩
      intro t ht
      cases t with
      | zero =>
          have hq2r : (b.enqueue state).2 < (internInitial (b.enqueue state).1 rest).1.states.length := by
            rw [hext2]
            have := List.length_append (b.enqueue state).1.states ext2
            omega
          refine ⟨by simpa using hq2r, ?_, by simp⟩
          show (internInitial (b.enqueue state).1 rest).1.states.getD (b.enqueue state).2 default
            = state
          rw [hext2, getD_append_lt _ _ _ _ hq2]
          exact hgetq2
      | succ t =>
          have ht2 : t < rest.length := by simpa using ht
          exact hrfacts t ht2

/-! ## the assembled constructor -/

theorem constructStage0_BInv (n : Nat) : BInv n constructStage0 := by
  refine ⟨rfl, List.nodup_nil, ?_, rfl, le_rfl, rfl⟩
  intro ps hps
  simp [constructStage0] at hps

theorem construct_main (dfa : FiniteStateAutomaton) (fuel : Nat) (lex : ParallelLexer)
    (bF : Builder) (hwf : FsaWF dfa)
    (hrun : ParallelLexer.construct dfa fuel = some (lex, bF)) :
    BInv dfa.num_states bF ∧
    lex.merge_table = bF.merge_table ∧
    lex.final_states = finalStates dfa bF.seen ∧
    lex.identity_state_index < bF.states.length ∧
    bF.states.getD lex.identity_state_index default = identityState dfa.num_states ∧
    lex.initial_states.length = MAX_SYM + 1 ∧
    (∀ sym, sym ≤ MAX_SYM →
      (lex.initial_states.getD sym default).result_state < bF.states.length ∧
      bF.states.getD (lex.initial_states.getD sym default).result_state default =
        (seedInitial dfa).getD sym default ∧
      (lex.initial_states.getD sym default).produces_lexeme =
        (((seedInitial dfa).getD sym default).transitions.getD
            START default).produces_lexeme) ∧
    (∀ i j, i < bF.states.length → j < bF.states.length →
      Covered bF lex.identity_state_index i j) := by
  obtain ⟨hIp1, ⟨extp, hextp⟩, hp1len0, hp1facts⟩ :=
    internInitial_facts dfa.num_states (seedInitial dfa) constructStage0
      (constructStage0_BInv dfa.num_states) (seedInitial_Wb dfa hwf)
  obtain ⟨hIq0, ⟨extq, hextq0⟩, hq2lt0, hqgetD0, -, -, -⟩ :=
    enqueue_facts dfa.num_states (constructSeedPhase dfa).1 (identityState dfa.num_states)
      hIp1 (identityState_Wb dfa.num_states)
  have hIq : BInv dfa.num_states (constructIdPhase dfa).1 := hIq0
  have hextq : (constructIdPhase dfa).1.states = (constructSeedPhase dfa).1.states ++ extq :=
    hextq0
  have hq2lt : (constructIdPhase dfa).2 < (constructIdPhase dfa).1.states.length := hq2lt0
  have hqgetD : (constructIdPhase dfa).1.states.getD (constructIdPhase dfa).2 default =
      identityState dfa.num_states := hqgetD0
  have hp1len : (constructSeedPhase dfa).2.length = (seedInitial dfa).length := hp1len0
  unfold ParallelLexer.construct at hrun
  cases houter : outerLoop (constructIdPhase dfa).2 fuel (constructIdPhase dfa).1 0 with
  | none =>
      rw [houter] at hrun
      exact Option.noConfusion hrun
  | some b3 =>
      rw [houter] at hrun
      injection hrun with hpair
      injection hpair with hlex hbF
      obtain ⟨hIF, ⟨extF, hextF⟩, hcovF⟩ :=
        outerLoop_facts dfa.num_states (constructIdPhase dfa).2 fuel
          (constructIdPhase dfa).1 0 b3 houter hIq
          (fun a c ha _ _ _ => absurd ha (by omega))
      subst hbF
      subst hlex
      have hq1len : (constructIdPhase dfa).1.states.length ≤ b3.states.length := by
        rw [hextF]
        simp
      refine ⟨hIF, rfl, rfl, ?_, ?_, ?_, ?_, ?_⟩
      · show (constructIdPhase dfa).2 < b3.states.length
        omega
      · show b3.states.getD (constructIdPhase dfa).2 default = identityState dfa.num_states
        rw [hextF, getD_append_lt _ _ _ _ hq2lt]
        exact hqgetD
      · show (constructSeedPhase dfa).2.length = MAX_SYM + 1
        rw [hp1len, seedInitial_length]
      · intro sym hsym
        have hsym2 : sym < (seedInitial dfa).length := by
          rw [seedInitial_length]
          omega
        obtain ⟨hidx0, hget0, hpl0⟩ := hp1facts sym hsym2
        have hidx : ((constructSeedPhase dfa).2.getD sym default).result_state <
            (constructSeedPhase dfa).1.states.length := hidx0
        have hget : (constructSeedPhase dfa).1.states.getD
            ((constructSeedPhase dfa).2.getD sym default).result_state default =
            (seedInitial dfa).getD sym default := hget0
        have hpl : ((constructSeedPhase dfa).2.getD sym default).produces_lexeme =
            (((seedInitial dfa).getD sym default).transitions.getD
              START default).produces_lexeme := hpl0
        have hstep : (constructSeedPhase dfa).1.states.length ≤
            (constructIdPhase dfa).1.states.length := by
          rw [hextq]
          simp
        refine ⟨?_, ?_, hpl⟩
        · show ((constructSeedPhase dfa).2.getD sym default).result_state < b3.states.length
          omega
        show b3.states.getD ((constructSeedPhase dfa).2.getD sym default).result_state default
          = (seedInitial dfa).getD sym default
        rw [hextF, getD_append_lt _ _ _ _ (by omega), hextq, getD_append_lt _ _ _ _ hidx]
        exact hget
      · intro i j hi hj
        exact hcovF i j hi hj

/-! ## consequences of coverage -/

theorem covered_result_lt (b : Builder) (idIdx i j : Nat)
    (hi : i < b.states.length) (hj : j < b.states.length)
    (hcov : Covered b idIdx i j) :
    (b.merge_table.get i j).result_state < b.states.length := by
  rw [hcov.2]
  exact mergeResult_lt b.states idIdx i j hi hj hcov.1

theorem covered_resApp (n : Nat) (b : Builder) (idIdx i j : Nat)
    (hI : BInv n b)
    (hidstate : b.states.getD idIdx default = identityState n)
    (hi : i < b.states.length) (hj : j < b.states.length)
    (hcov : Covered b idIdx i j) (s : Nat) (hs : s < n) :
    (b.states.getD (b.merge_table.get i j).result_state default).resApp s =
      (b.states.getD j default).resApp ((b.states.getD i default).resApp s) := by
  obtain ⟨-, -, hwb, -, -, -⟩ := hI
  have hwi : (b.states.getD i default).Wb n := hwb _ (getD_mem_of_lt hi)
  have hwj : (b.states.getD j default).Wb n := hwb _ (getD_mem_of_lt hj)
  rw [hcov.2]
  show (b.states.getD (mergeResult b.states idIdx i j) default).resApp s = _
  unfold mergeResult
  by_cases h1 : i = idIdx
  · rw [if_pos h1, h1, hidstate, identityState_resApp n s hs]
  · rw [if_neg h1]
    by_cases h2 : j = idIdx
    · rw [if_pos h2, h2, hidstate,
        identityState_resApp n _ (resApp_lt _ n hwi s hs)]
    · rw [if_neg h2, getD_psIdx _ _ (hcov.1 h1 h2)]
      exact resApp_merge _ _ n hwi hwj s hs

/-! ## final-states table lemmas -/

theorem finalStates_fold_general (dfa : FiniteStateAutomaton) (l : List ParallelState) :
    ∀ (k : Nat) (acc : List (Option Nat)),
    ((seenFrom k l).foldl
        (fun acc2 e => acc2.set e.2
          ((dfa.states.getD (e.1.transitions.getD START default).result_state
            default).lexeme)) acc).length = acc.length ∧
    (∀ pos, pos < k →
      ((seenFrom k l).foldl
        (fun acc2 e => acc2.set e.2
          ((dfa.states.getD (e.1.transitions.getD START default).result_state
            default).lexeme)) acc).getD pos none = acc.getD pos none) ∧
    (∀ t, t < l.length → k + t < acc.length →
      ((seenFrom k l).foldl
        (fun acc2 e => acc2.set e.2
          ((dfa.states.getD (e.1.transitions.getD START default).result_state
            default).lexeme)) acc).getD (k + t) none =
        (dfa.states.getD ((l.getD t default).transitions.getD START default).result_state
          default).lexeme) := by
  induction l with
  | nil =>
      intro k acc
      exact ⟨rfl, fun pos _ => rfl, fun t ht _ => absurd ht (by simp)⟩
  | cons a l ih =>
      intro k acc
      rw [show seenFrom k (a :: l) = (a, k) :: seenFrom (k + 1) l from rfl]
      simp only [List.foldl_cons]
      obtain ⟨ihlen, ihlo, ihhi⟩ := ih (k + 1) (acc.set k
        ((dfa.states.getD (a.transitions.getD START default).result_state default).lexeme))
      refine ⟨by rw [ihlen]; simp, ?_, ?_⟩
      · intro pos hpos
        rw [ihlo pos (by omega), getD_set, if_neg (fun hcon => by omega)]
      · intro t ht hin
        cases t with
        | zero =>
            rw [ihlo (k + 0) (by omega), getD_set,
              if_pos ⟨by omega, by simpa using hin⟩]
            rfl
        | succ t =>
            have := ihhi t (by simpa using ht)
              (by rw [List.length_set]; omega)
            rw [show k + (t + 1) = (k + 1) + t by omega]
            rw [this]
            rfl

theorem finalStates_getD (dfa : FiniteStateAutomaton) (l : List ParallelState) :
    (finalStates dfa (seenFrom 0 l)).length = l.length ∧
    ∀ i, i < l.length → (finalStates dfa (seenFrom 0 l)).getD i none =
      (dfa.states.getD ((l.getD i default).transitions.getD START default).result_state
        default).lexeme := by
  obtain ⟨hlen, -, hhi⟩ := finalStates_fold_general dfa l 0
    (List.replicate (seenFrom 0 l).length none)
  constructor
  · show _ = l.length
    rw [finalStates, hlen]
    simp [seenFrom_length]
  · intro i hi
    have := hhi i hi (by simp [seenFrom_length]; omega)
    rw [finalStates]
    simpa using this

theorem seenFrom_getD (l : List ParallelState) :
    ∀ k t, t < l.length →
      (seenFrom k l).getD t (default, 0) = (l.getD t default, k + t) := by
  induction l with
  | nil => intro k t ht; simp at ht
  | cons a l ih =>
      intro k t ht
      cases t with
      | zero => simp [seenFrom]
      | succ t =>
          show (seenFrom (k + 1) l).getD t (default, 0) = _
          rw [ih (k + 1) t (by simpa using ht)]
          have : k + 1 + t = k + (t + 1) := by omega
          rw [this]
          rfl

/-! ## claim theorems -/

/-- C3 (counterexample): `ParallelState::merge` does not branch on `REJECT`;
for `self = [(REJECT, false)]` and `other = [(0, true)]` of equal width, the
slot whose `result_state` is `REJECT` does not stay `(REJECT, false)` after
`self.merge(other)` — it becomes `other[REJECT] = (0, true)`. -/
theorem claim_C3_counterexample :
    (ParallelState.mk [⟨REJECT, false⟩]).transitions.length =
      (ParallelState.mk [⟨0, true⟩]).transitions.length ∧
    ((ParallelState.mk [⟨REJECT, false⟩]).transitions.getD 0 default).result_state = REJECT ∧
    ¬ ((ParallelState.mk [⟨REJECT, false⟩]).merge
        (ParallelState.mk [⟨0, true⟩])).transitions.getD 0 default = ⟨REJECT, false⟩ := by
  decide

/-- C3 (amended): a slot holding `REJECT` stays `(REJECT, false)` after
`self.merge(other)` provided `other` keeps its own `REJECT` slot at
`(REJECT, false)` — which every `ParallelState` arising in the construction
does; the lookup `other[self[s].result_state]` the merge performs at such a
slot is then in bounds whenever `REJECT < other.width`. -/
theorem claim_C3_reject_absorbing_amended (self other : ParallelState) (s : Nat)
    (hw : REJECT < other.transitions.length)
    (habs : other.transitions.getD REJECT default = ⟨REJECT, false⟩)
    (hs : s < self.transitions.length)
    (hrej : (self.transitions.getD s default).result_state = REJECT) :
    (self.merge other).transitions.getD s default = ⟨REJECT, false⟩ ∧
    (self.transitions.getD s default).result_state < other.transitions.length := by
  constructor
  · rw [merge_getD self other s hs, hrej, habs]
  · rw [hrej]
    exact hw

theorem claim_C3_witness :
    REJECT < (ParallelState.mk [⟨0, false⟩]).transitions.length ∧
    ((ParallelState.mk [⟨0, false⟩]).merge
      (ParallelState.mk [⟨0, false⟩])).transitions.getD 0 default = ⟨REJECT, false⟩ :=
  ⟨by decide,
    (claim_C3_reject_absorbing_amended (ParallelState.mk [⟨0, false⟩])
      (ParallelState.mk [⟨0, false⟩]) 0 (by decide) (by decide) (by decide) (by decide)).1⟩

/-- C8: `MergeTable::resize` with `new_K ≤ capacity` only changes the logical
side length; with `new_K > capacity` it grows the capacity to
`max(MIN_SIZE, capacity) · GROW_FACTOR^k` for the least `k` reaching
`new_K`, preserves existing entries at their logical `(first, second)`
coordinates under the new stride, and default-initializes every newly
exposed cell to `(REJECT, false)`. -/
theorem claim_C8_resize (t : MergeTable) (new_K : Nat)
    (hnum : t.num_states ≤ t.capacity)
    (hlen : t.merge_table.length = t.capacity * t.capacity) :
    (new_K ≤ t.capacity → t.resize new_K = ⟨new_K, t.capacity, t.merge_table⟩) ∧
    (t.capacity < new_K →
      (t.resize new_K).capacity = growCapacity (max MIN_SIZE t.capacity) new_K ∧
      (∃ k, (t.resize new_K).capacity = max MIN_SIZE t.capacity * GROW_FACTOR ^ k ∧
        new_K ≤ (t.resize new_K).capacity ∧
        ∀ k2 < k, max MIN_SIZE t.capacity * GROW_FACTOR ^ k2 < new_K) ∧
      (∀ first second, first < t.num_states → second < t.num_states →
        (t.resize new_K).get first second = t.get first second) ∧
      (∀ first second, first < (t.resize new_K).capacity →
        second < (t.resize new_K).capacity →
        ¬(first < t.num_states ∧ second < t.num_states) →
        (t.resize new_K).get first second = ⟨REJECT, false⟩)) := by
  constructor
  · intro h
    exact resize_le_eq t new_K h
  · intro h
    have hc : 0 < max MIN_SIZE t.capacity := by
      simp only [MIN_SIZE]
      omega
    obtain ⟨hge, -, k, hk, hmin⟩ := growCapacity_key (max MIN_SIZE t.capacity) new_K hc
    have hcap := resize_gt_capacity t new_K h
    refine ⟨hcap, ⟨k, by rw [hcap]; exact hk, by rw [hcap]; exact hge, hmin⟩, ?_, ?_⟩
    · intro first second h1 h2
      exact resize_get_preserved t new_K hnum first second h1 h2
    · intro first second h1 h2 h3
      rw [resize_gt_get t new_K h first second h1 h2, if_neg h3]
      rfl

theorem claim_C8_witness :
    (MergeTable.empty.resize 1).num_states ≤ (MergeTable.empty.resize 1).capacity ∧
    ((MergeTable.empty.resize 1).resize 9).capacity =
      growCapacity (max MIN_SIZE (MergeTable.empty.resize 1).capacity) 9 ∧
    ((MergeTable.empty.resize 1).resize 9).get 0 0 = (MergeTable.empty.resize 1).get 0 0 ∧
    ((MergeTable.empty.resize 1).resize 9).get 5 5 = ⟨REJECT, false⟩ := by
  have h := claim_C8_resize (MergeTable.empty.resize 1) 9 (by decide) (by decide)
  obtain ⟨-, h2⟩ := h
  obtain ⟨hcap, -, hpres, hnew⟩ := h2 (by decide)
  exact ⟨by decide, hcap, hpres 0 0 (by decide) (by decide),
    hnew 5 5 (by decide) (by decide) (by decide)⟩

/-- C9 (counterexample): the assertion in `MergeTable::index` is
`first <= num_states` (not `<`), so a call with `first = states()` — which is
`≥ states()` and addresses a cell outside the logical `K × K` table — passes
the assertion.  Here `states() = 1` and the call `(1, 0)` passes. -/
theorem claim_C9_counterexample :
    1 ≥ (MergeTable.empty.resize 1).states ∧
    (MergeTable.empty.resize 1).indexAssert 1 0 = true := by
  decide

/-- C9 (amended): the assertion fails exactly when `first > states()` or
`second > states()` (one more than the claim said); consequently every
access the builder performs — always with `first, second < states()` —
passes the assertion and its offset stays inside the allocated
`capacity²` buffer. -/
theorem claim_C9_assert_amended (t : MergeTable) (first second : Nat) :
    (t.indexAssert first second = false ↔
      t.states < first ∨ t.states < second) ∧
    (first < t.states → second < t.states → t.num_states ≤ t.capacity →
      t.merge_table.length = t.capacity * t.capacity →
      t.indexAssert first second = true ∧
      t.index first second < t.merge_table.length) := by
  constructor
  · simp only [MergeTable.indexAssert, MergeTable.states, Bool.and_eq_false_iff,
      decide_eq_false_iff_not, Nat.not_le]
  · intro h1 h2 h3 h4
    unfold MergeTable.states at h1 h2
    constructor
    · simp only [MergeTable.indexAssert, Bool.and_eq_true, decide_eq_true_eq]
      omega
    · rw [h4]
      exact index_lt_sq first second t.capacity (by omega) (by omega)

theorem claim_C9_witness :
    0 < (MergeTable.empty.resize 1).states ∧
    (MergeTable.empty.resize 1).indexAssert 0 0 = true ∧
    (MergeTable.empty.resize 1).index 0 0 < (MergeTable.empty.resize 1).merge_table.length := by
  have h := (claim_C9_assert_amended (MergeTable.empty.resize 1) 0 0).2
    (by decide) (by decide) (by decide) (by decide)
  exact ⟨by decide, h.1, h.2⟩

/-- C4: on every completed artifact, for every interned index `i`,
`merge_table[identity_state_index, i].result_state = i` and
`merge_table[i, identity_state_index].result_state = i`, and the
`ParallelState` interned at `identity_state_index` maps every DFA state `s`
to `(s, false)`. -/
theorem claim_C4_identity (dfa : FiniteStateAutomaton) (fuel : Nat) (lex : ParallelLexer)
    (bF : Builder) (hwf : FsaWF dfa)
    (hrun : ParallelLexer.construct dfa fuel = some (lex, bF)) :
    (∀ i, i < bF.states.length →
      (lex.merge_table.get lex.identity_state_index i).result_state = i ∧
      (lex.merge_table.get i lex.identity_state_index).result_state = i) ∧
    ∀ s, s < dfa.num_states →
      (bF.states.getD lex.identity_state_index default).transitions.getD s default
        = ⟨s, false⟩ := by
  obtain ⟨hI, hmt, hfs, hidlt, hidstate, hinitlen, hinit, hcov⟩ :=
    construct_main dfa fuel lex bF hwf hrun
  rw [hmt]
  constructor
  · intro i hi
    constructor
    · rw [(hcov lex.identity_state_index i hidlt hi).2]
      show mergeResult bF.states lex.identity_state_index lex.identity_state_index i = i
      unfold mergeResult
      rw [if_pos rfl]
    · rw [(hcov i lex.identity_state_index hi hidlt).2]
      show mergeResult bF.states lex.identity_state_index i lex.identity_state_index = i
      unfold mergeResult
      by_cases h1 : i = lex.identity_state_index
      · rw [if_pos h1, h1]
      · rw [if_neg h1, if_pos rfl]
  · intro s hs
    rw [hidstate]
    exact identityState_transitions_getD dfa.num_states s hs

theorem claim_C4_witness :
    ParallelLexer.construct testDfa 50 = some (testLex, testBld) ∧
    (testLex.merge_table.get testLex.identity_state_index 1).result_state = 1 ∧
    (testLex.merge_table.get 1 testLex.identity_state_index).result_state = 1 ∧
    (testBld.states.getD testLex.identity_state_index default).transitions.getD 2 default
      = ⟨2, false⟩ := by
  have h := claim_C4_identity testDfa 50 testLex testBld (by decide) (by decide)
  exact ⟨by decide, (h.1 1 (by decide)).1, (h.1 1 (by decide)).2, h.2 2 (by decide)⟩

/-- C6: every stored `produces_lexeme` flag equals
`states[merge_table[i,j].result_state][START].produces_lexeme` — the code
reads it from `states[result]` in all cases, including the identity
shortcuts — and when exactly one operand is the identity the flag therefore
equals the non-identity operand's START flag. -/
theorem claim_C6_produces_lexeme (dfa : FiniteStateAutomaton) (fuel : Nat)
    (lex : ParallelLexer) (bF : Builder) (hwf : FsaWF dfa)
    (hrun : ParallelLexer.construct dfa fuel = some (lex, bF)) :
    ∀ i j, i < bF.states.length → j < bF.states.length →
      ((lex.merge_table.get i j).produces_lexeme =
        ((bF.states.getD (lex.merge_table.get i j).result_state default).transitions.getD
          START default).produces_lexeme) ∧
      (i = lex.identity_state_index →
        (lex.merge_table.get i j).produces_lexeme =
          ((bF.states.getD j default).transitions.getD START default).produces_lexeme) ∧
      (j = lex.identity_state_index →
        (lex.merge_table.get i j).produces_lexeme =
          ((bF.states.getD i default).transitions.getD START default).produces_lexeme) := by
  obtain ⟨hI, hmt, hfs, hidlt, hidstate, hinitlen, hinit, hcov⟩ :=
    construct_main dfa fuel lex bF hwf hrun
  rw [hmt]
  intro i j hi hj
  have hc := (hcov i j hi hj).2
  refine ⟨by rw [hc]; rfl, ?_, ?_⟩
  · intro h1
    rw [hc]
    show ((bF.states.getD (mergeResult bF.states lex.identity_state_index i j)
      default).transitions.getD START default).produces_lexeme = _
    unfold mergeResult
    rw [if_pos h1]
  · intro h2
    rw [hc]
    show ((bF.states.getD (mergeResult bF.states lex.identity_state_index i j)
      default).transitions.getD START default).produces_lexeme = _
    unfold mergeResult
    by_cases h1 : i = lex.identity_state_index
    · rw [if_pos h1, h1, h2]
    · rw [if_neg h1, if_pos h2]

theorem claim_C6_witness :
    ParallelLexer.construct testDfa 50 = some (testLex, testBld) ∧
    (testLex.merge_table.get 0 1).produces_lexeme =
      ((testBld.states.getD (testLex.merge_table.get 0 1).result_state
        default).transitions.getD START default).produces_lexeme ∧
    (testLex.merge_table.get 1 testLex.identity_state_index).produces_lexeme =
      ((testBld.states.getD 1 default).transitions.getD START default).produces_lexeme := by
  have h := claim_C6_produces_lexeme testDfa 50 testLex testBld (by decide) (by decide)
  exact ⟨by decide, (h 0 1 (by decide) (by decide)).1,
    (h 1 testLex.identity_state_index (by decide) (by decide)).2.2 rfl⟩

/-- C7: on every completed artifact `final_states` has one entry per interned
parallel state, and entry `i` is the optional lexeme the DFA attaches to the
state that parallel state `i` sends `START` to; absence (`none`) is an
ordinary value. -/
theorem claim_C7_final_states (dfa : FiniteStateAutomaton) (fuel : Nat)
    (lex : ParallelLexer) (bF : Builder) (hwf : FsaWF dfa)
    (hrun : ParallelLexer.construct dfa fuel = some (lex, bF)) :
    lex.final_states.length = bF.states.length ∧
    ∀ i, i < bF.states.length →
      lex.final_states.getD i none =
        (dfa.states.getD ((bF.states.getD i default).transitions.getD START
          default).result_state default).lexeme := by
  obtain ⟨hI, hmt, hfs, hidlt, hidstate, hinitlen, hinit, hcov⟩ :=
    construct_main dfa fuel lex bF hwf hrun
  rw [hfs, hI.1]
  exact finalStates_getD dfa bF.states

theorem claim_C7_witness :
    ParallelLexer.construct testDfa 50 = some (testLex, testBld) ∧
    testLex.final_states.length = testBld.states.length ∧
    testLex.final_states.getD 0 none =
      (testDfa.states.getD ((testBld.states.getD 0 default).transitions.getD START
        default).result_state default).lexeme := by
  have h := claim_C7_final_states testDfa 50 testLex testBld (by decide) (by decide)
  exact ⟨by decide, h.1, h.2 0 (by decide)⟩

/-- C10: on every completed artifact the three interner containers have equal
cardinality, the dedup map holds exactly the pairs `(states[k], k)`, and
enqueueing a state structurally equal to an interned one returns the
existing index and changes nothing (stated for every builder state whose
dedup map is in the canonical correspondence — an invariant of every
reachable builder state). -/
theorem claim_C10_interner (dfa : FiniteStateAutomaton) (fuel : Nat)
    (lex : ParallelLexer) (bF : Builder) (hwf : FsaWF dfa)
    (hrun : ParallelLexer.construct dfa fuel = some (lex, bF)) :
    (bF.seen.length = bF.states.length ∧ bF.states.length = bF.merge_table.states) ∧
    (∀ k, k < bF.states.length →
      bF.seen.getD k (default, 0) = (bF.states.getD k default, k)) ∧
    ∀ (b : Builder) (ps : ParallelState), b.seen = seenFrom 0 b.states → ps ∈ b.states →
      b.enqueue ps = (b, psIdx b.states ps) ∧
      b.states.getD (psIdx b.states ps) default = ps := by
  obtain ⟨hI, hmt, hfs, hidlt, hidstate, hinitlen, hinit, hcov⟩ :=
    construct_main dfa fuel lex bF hwf hrun
  refine ⟨⟨?_, ?_⟩, ?_, ?_⟩
  · rw [hI.1, seenFrom_length]
  · exact hI.2.2.2.1.symm
  · intro k hk
    rw [hI.1]
    simpa using seenFrom_getD bF.states 0 k hk
  · intro b ps hcorr hmem
    exact ⟨enqueue_of_mem b ps hcorr hmem, getD_psIdx b.states ps hmem default⟩

/-- C2 (counterexample): the table entry is not always the interned index of
the composition, and the interned set is not closed under raw `merge`.  On
`testDfa`, `merge_table[1, identity].result_state = 1` although the
composition `states[1].merge(states[identity])` (the flags-erased copy of
`states[1]`) is interned at index `3 ≠ 1`; on `testDfaB` the composition
`states[0].merge(states[identity])` is not interned at all — the saturation
loop never performs a real composition with the identity because of the
shortcut. -/
theorem claim_C2_counterexample :
    (ParallelLexer.construct testDfa 50 = some (testLex, testBld) ∧
      1 < testBld.states.length ∧
      testLex.identity_state_index < testBld.states.length ∧
      (testLex.merge_table.get 1 testLex.identity_state_index).result_state = 1 ∧
      psIdx testBld.states ((testBld.states.getD 1 default).merge
        (testBld.states.getD testLex.identity_state_index default)) = 3 ∧
      ((testBld.states.getD 1 default).merge
        (testBld.states.getD testLex.identity_state_index default)) ∈ testBld.states ∧
      ¬ (testLex.merge_table.get 1 testLex.identity_state_index).result_state =
        psIdx testBld.states ((testBld.states.getD 1 default).merge
          (testBld.states.getD testLex.identity_state_index default))) ∧
    (ParallelLexer.construct testDfaB 50 = some (testLexB, testBldB) ∧
      0 < testBldB.states.length ∧
      testLexB.identity_state_index < testBldB.states.length ∧
      ¬ ((testBldB.states.getD 0 default).merge
        (testBldB.states.getD testLexB.identity_state_index default)) ∈ testBldB.states) := by
  decide

/-- C2 (amended): every table entry's `result_state` is an interned index in
`[0, K)`; whenever the second operand is not the identity state the entry is
the interned index of the composition of states `i` and `j` and that
composition is interned; when the second operand is the identity the entry
is `i` itself (the raw composition would erase `produces_lexeme` flags and
need not be interned). -/
theorem claim_C2_closure_amended (dfa : FiniteStateAutomaton) (fuel : Nat)
    (lex : ParallelLexer) (bF : Builder) (hwf : FsaWF dfa)
    (hrun : ParallelLexer.construct dfa fuel = some (lex, bF)) :
    ∀ i j, i < bF.states.length → j < bF.states.length →
      (lex.merge_table.get i j).result_state < bF.states.length ∧
      (j ≠ lex.identity_state_index →
        ((bF.states.getD i default).merge (bF.states.getD j default)) ∈ bF.states ∧
        (lex.merge_table.get i j).result_state =
          psIdx bF.states ((bF.states.getD i default).merge (bF.states.getD j default))) ∧
      (j = lex.identity_state_index → (lex.merge_table.get i j).result_state = i) := by
  obtain ⟨hI, hmt, hfs, hidlt, hidstate, hinitlen, hinit, hcov⟩ :=
    construct_main dfa fuel lex bF hwf hrun
  rw [hmt]
  intro i j hi hj
  have hc := hcov i j hi hj
  refine ⟨covered_result_lt bF _ i j hi hj hc, ?_, ?_⟩
  · intro hjne
    by_cases h1 : i = lex.identity_state_index
    · have hmerge : (bF.states.getD i default).merge (bF.states.getD j default)
          = bF.states.getD j default := by
        rw [h1, hidstate]
        exact merge_identity_left dfa.num_states _ (hI.2.2.1 _ (getD_mem_of_lt hj))
      rw [hmerge]
      refine ⟨getD_mem_of_lt hj, ?_⟩
      rw [hc.2]
      show mergeResult bF.states lex.identity_state_index i j = _
      unfold mergeResult
      rw [if_pos h1]
      exact (psIdx_getD_self bF.states j hI.2.1 hj).symm
    · refine ⟨hc.1 h1 hjne, ?_⟩
      rw [hc.2]
      show mergeResult bF.states lex.identity_state_index i j = _
      unfold mergeResult
      rw [if_neg h1, if_neg hjne]
  · intro hjeq
    rw [hc.2]
    show mergeResult bF.states lex.identity_state_index i j = i
    unfold mergeResult
    by_cases h1 : i = lex.identity_state_index
    · rw [if_pos h1, hjeq, h1]
    · rw [if_neg h1, if_pos hjeq]

theorem claim_C2_witness :
    ParallelLexer.construct testDfa 50 = some (testLex, testBld) ∧
    (testLex.merge_table.get 0 1).result_state < testBld.states.length ∧
    ((testBld.states.getD 0 default).merge (testBld.states.getD 1 default)) ∈
      testBld.states ∧
    (testLex.merge_table.get 0 1).result_state =
      psIdx testBld.states
        ((testBld.states.getD 0 default).merge (testBld.states.getD 1 default)) ∧
    (testLex.merge_table.get 0 testLex.identity_state_index).result_state = 0 := by
  have h := claim_C2_closure_amended testDfa 50 testLex testBld (by decide) (by decide)
  have h01 := h 0 1 (by decide) (by decide)
  have h0id := h 0 testLex.identity_state_index (by decide) (by decide)
  exact ⟨by decide, h01.1, (h01.2.1 (by decide)).1, (h01.2.1 (by decide)).2,
    h0id.2.2 rfl⟩

/-- C5 (counterexample): the merge table is not associative at the index
level.  On `testDfa`, with `i = 1`, `j = k = 0`:
`merge_table[merge_table[1,0], 0] = merge_table[0,0] = identity (3)` while
`merge_table[1, merge_table[0,0]] = merge_table[1, identity] = 1` by the
identity shortcut — `3 ≠ 1`. -/
theorem claim_C5_counterexample :
    ParallelLexer.construct testDfa 50 = some (testLex, testBld) ∧
    1 < testBld.states.length ∧ 0 < testBld.states.length ∧
    ¬ (testLex.merge_table.get
        (testLex.merge_table.get 1 0).result_state 0).result_state =
      (testLex.merge_table.get 1
        (testLex.merge_table.get 0 0).result_state).result_state := by
  decide

/-- C5 (amended): associativity holds on the quotient by the result-state
functions: for all interned `i, j, k`, the states at the two nested table
results realize the same function on DFA states — even though the interned
indices themselves can differ when a composition of non-identity states
equals the identity state. -/
theorem claim_C5_assoc_amended (dfa : FiniteStateAutomaton) (fuel : Nat)
    (lex : ParallelLexer) (bF : Builder) (hwf : FsaWF dfa)
    (hrun : ParallelLexer.construct dfa fuel = some (lex, bF)) :
    ∀ i j k s, i < bF.states.length → j < bF.states.length → k < bF.states.length →
      s < dfa.num_states →
      (bF.states.getD (lex.merge_table.get
          (lex.merge_table.get i j).result_state k).result_state default).resApp s =
      (bF.states.getD (lex.merge_table.get i
          (lex.merge_table.get j k).result_state).result_state default).resApp s := by
  obtain ⟨hI, hmt, hfs, hidlt, hidstate, hinitlen, hinit, hcov⟩ :=
    construct_main dfa fuel lex bF hwf hrun
  rw [hmt]
  intro i j k s hi hj hk hs
  have hwb := hI.2.2.1
  have hr1 := covered_result_lt bF _ i j hi hj (hcov i j hi hj)
  have hr2 := covered_result_lt bF _ j k hj hk (hcov j k hj hk)
  have h1 := covered_resApp dfa.num_states bF _ i j hI hidstate hi hj (hcov i j hi hj) s hs
  have h2 := covered_resApp dfa.num_states bF _ (bF.merge_table.get i j).result_state k hI
    hidstate hr1 hk (hcov _ k hr1 hk) s hs
  have hpoint : (bF.states.getD i default).resApp s < dfa.num_states :=
    resApp_lt _ _ (hwb _ (getD_mem_of_lt hi)) s hs
  have h3 := covered_resApp dfa.num_states bF _ i (bF.merge_table.get j k).result_state hI
    hidstate hi hr2 (hcov i _ hi hr2) s hs
  have h4 := covered_resApp dfa.num_states bF _ j k hI hidstate hj hk (hcov j k hj hk)
    ((bF.states.getD i default).resApp s) hpoint
  rw [h2, h1, h3, h4]

theorem claim_C5_witness :
    ParallelLexer.construct testDfa 50 = some (testLex, testBld) ∧
    (testBld.states.getD (testLex.merge_table.get
        (testLex.merge_table.get 1 0).result_state 0).result_state default).resApp 1 =
      (testBld.states.getD (testLex.merge_table.get 1
        (testLex.merge_table.get 0 0).result_state).result_state default).resApp 1 := by
  have h := claim_C5_assoc_amended testDfa 50 testLex testBld (by decide) (by decide)
  exact ⟨by decide, h 1 0 0 1 (by decide) (by decide) (by decide) (by decide)⟩

/-- C1: structural soundness of the artifact.  For every well-formed DFA and
every byte sequence within the alphabet, folding the per-byte entries
`initial_states[b_t]` through the merge table starting at the identity
state reaches an index `r` with `final_states[r]` equal to the optional
lexeme the sequential DFA recognizes from `START` over the same bytes. -/
theorem claim_C1_structural_soundness (dfa : FiniteStateAutomaton) (fuel : Nat)
    (lex : ParallelLexer) (bF : Builder) (hwf : FsaWF dfa)
    (hrun : ParallelLexer.construct dfa fuel = some (lex, bF))
    (bytes : List Nat) (hbytes : ∀ b ∈ bytes, b ≤ MAX_SYM) :
    lex.final_states.getD (foldBytes lex bytes) none = seqLexeme dfa bytes := by
  obtain ⟨hI, hmt, hfs, hidlt, hidstate, hinitlen, hinit, hcov⟩ :=
    construct_main dfa fuel lex bF hwf hrun
  have hwb := hI.2.2.1
  have hstart : START < dfa.num_states := hwf.2.1
  have hkey : ∀ (bs : List Nat) (acc : Nat), acc < bF.states.length →
      (∀ byt ∈ bs, byt ≤ MAX_SYM) →
      (bs.foldl (fun acc2 b =>
        (bF.merge_table.get acc2
          (lex.initial_states.getD b default).result_state).result_state) acc)
        < bF.states.length ∧
      ∀ s, s < dfa.num_states →
        (bF.states.getD (bs.foldl (fun acc2 b =>
          (bF.merge_table.get acc2
            (lex.initial_states.getD b default).result_state).result_state) acc)
          default).resApp s
          = seqRun dfa ((bF.states.getD acc default).resApp s) bs := by
    intro bs
    induction bs with
    | nil => exact fun acc hacc _ => ⟨hacc, fun s _ => rfl⟩
    | cons byt rest ih =>
        intro acc hacc hb
        have hbyt : byt ≤ MAX_SYM := hb byt (List.mem_cons_self _ _)
        obtain ⟨hidxlt, hidxstate, -⟩ := hinit byt hbyt
        have hcovstep := hcov acc _ hacc hidxlt
        have hstep_lt := covered_result_lt bF _ acc _ hacc hidxlt hcovstep
        have hrest := ih ((bF.merge_table.get acc
            (lex.initial_states.getD byt default).result_state).result_state)
          hstep_lt (fun x hx => hb x (List.mem_cons_of_mem _ hx))
        constructor
        · simp only [List.foldl_cons]
          exact hrest.1
        · intro s hs
          simp only [List.foldl_cons]
          rw [hrest.2 s hs]
          show seqRun dfa _ rest =
            seqRun dfa (seqStep dfa ((bF.states.getD acc default).resApp s) byt) rest
          congr 1
          rw [covered_resApp dfa.num_states bF _ acc _ hI hidstate hacc hidxlt hcovstep s hs,
            hidxstate]
          exact seeded_resApp dfa hwf byt _ hbyt
            (resApp_lt _ _ (hwb _ (getD_mem_of_lt hacc)) s hs)
  obtain ⟨hrl, hrapp⟩ := hkey bytes lex.identity_state_index hidlt hbytes
  obtain ⟨hfl, hfe⟩ := finalStates_getD dfa bF.states
  simp only [foldBytes, hmt]
  rw [show lex.final_states = finalStates dfa (seenFrom 0 bF.states) by rw [hfs, hI.1]]
  rw [hfe _ hrl]
  show (dfa.states.getD ((bF.states.getD _ default).resApp START) default).lexeme = _
  rw [hrapp START hstart, hidstate, identityState_resApp dfa.num_states START hstart]
  rfl

theorem claim_C1_witness :
    ParallelLexer.construct testDfa 50 = some (testLex, testBld) ∧
    testLex.final_states.getD (foldBytes testLex [0, 1]) none = seqLexeme testDfa [0, 1] :=
  ⟨by decide,
    claim_C1_structural_soundness testDfa 50 testLex testBld (by decide) (by decide)
      [0, 1] (by decide)⟩

theorem claim_C10_witness :
    ParallelLexer.construct testDfa 50 = some (testLex, testBld) ∧
    testBld.seen.length = testBld.states.length ∧
    testBld.states.length = testBld.merge_table.states ∧
    testBld.seen.getD 4 (default, 0) = (testBld.states.getD 4 default, 4) ∧
    testBld.enqueue (testBld.states.getD 2 default) =
      (testBld, psIdx testBld.states (testBld.states.getD 2 default)) := by
  have h := claim_C10_interner testDfa 50 testLex testBld (by decide) (by decide)
  refine ⟨by decide, h.1.1, h.1.2, h.2.1 4 (by decide), ?_⟩
  exact (h.2.2 testBld (testBld.states.getD 2 default) (by decide)
    (by decide)).1

end CudaLexer
